import Mathlib

/-!
# Verification of OpenRedireX (`openredirex.py`)

A shallow embedding, in Lean 4, of the single-file Python program
`openredirex.py` (an asynchronous open-redirect fuzzer), together with
proofs and refutations of a list of specification claims about it.

Python strings are modelled as `List Char` (one entry per Unicode code
point, exactly as Python indexes its `str` type).  The relevant pieces of
the Python standard library (`str.strip`, `str.replace`, the `in`
operator, `urllib.parse.urlsplit` / `urlparse` / `parse_qsl` / `urlencode`
/ `urlunparse` / `quote_plus` / `unquote`) are embedded faithfully from
their CPython implementations (CPython 3.11 line: `urlsplit` removes ASCII
tab/CR/LF anywhere in the URL per bpo-43882, splits the query only on
`&` per bpo-42967, and `unquote` percent-decodes to UTF-8 bytes which are
then decoded with `errors=replace`).

The asyncio dispatch logic of `process_url` / `process_urls` / `main`
(one asyncio task per target URL; one shared `asyncio.Semaphore`; the
payload loop, progress ticks and findings inside the per-URL task;
`asyncio.gather(..., return_exceptions=True)` at the coordinator) is
modelled as a small-step transition system whose interleavings
over-approximate every event-loop schedule.
-/

set_option autoImplicit false

namespace OpenRedireX

/-- Convert a Lean string literal to the `List Char` representation used
throughout (Python `str` as a list of code points). -/
def S (s : String) : List Char := s.data

/-! ## Python `str` helpers -/

/-- The characters Python's `str.strip()` (no argument) removes: Unicode
whitespace.  This is the full set for which `str.isspace` holds. -/
def isPySpace (c : Char) : Bool :=
  (0x09 ≤ c.toNat && c.toNat ≤ 0x0D) || (0x1C ≤ c.toNat && c.toNat ≤ 0x1F) ||
  c.toNat = 0x20 || c.toNat = 0x85 || c.toNat = 0xA0 || c.toNat = 0x1680 ||
  (0x2000 ≤ c.toNat && c.toNat ≤ 0x200A) || c.toNat = 0x2028 || c.toNat = 0x2029 ||
  c.toNat = 0x202F || c.toNat = 0x205F || c.toNat = 0x3000

/-- Python `s.strip()`: remove whitespace from BOTH ends of the string
(leading and trailing), leaving interior characters untouched. -/
def pyStrip (s : List Char) : List Char :=
  ((s.dropWhile isPySpace).reverse.dropWhile isPySpace).reverse

/-- Python `needle in haystack` on strings: contiguous-substring test. -/
def pyIn (needle haystack : List Char) : Prop := needle <:+: haystack

instance (needle haystack : List Char) : Decidable (pyIn needle haystack) :=
  List.decidableInfix needle haystack

/-! ## `load_payloads` (lines 23–27)

```python
async def load_payloads(payloads_file):
    if payloads_file:
        with open(payloads_file) as f:
            return [line.strip() for line in f]
    return redirect_payloads
```

A payload file is modelled as the list of lines Python's file iteration
yields (each line carries its trailing newline, except possibly the last).
-/

/-- The module-level `redirect_payloads` list.  In the source it is
literally empty: `redirect_payloads = [ # Your predefined payloads... ]`. -/
def redirect_payloads : List (List Char) := []

/-- `load_payloads`: with a file, one payload per line in file order, each
line passed through `str.strip()`; with no file, the hardcoded list. -/
def load_payloads (payloads_file : Option (List (List Char))) : List (List Char) :=
  match payloads_file with
  | some lines => lines.map pyStrip
  | none => redirect_payloads

/-! ## The redirect-chain classifier (lines 58–63)

```python
if response and response.history:
    locations = " --> ".join(str(r.url) for r in response.history)
    if "-->" in locations:
        tqdm.write(f'...[FOUND]... {filled_url} redirects to {locations}...')
    else:
        tqdm.write(f'[INFO] {filled_url} redirects to {locations}')
```

A response's redirect history is modelled as the list of the `str(r.url)`
strings of the intermediate responses.
-/

/-- The separator `" --> "` used by `join`. -/
def arrowSep : List Char := S " --> "

/-- The needle `"-->"` tested by the classifier. -/
def arrowNeedle : List Char := S "-->"

/-- `locations`: `" --> ".join(str(r.url) for r in history)`. -/
def locationsString (history : List (List Char)) : List Char :=
  List.intercalate arrowSep history

/-- The classifier: a finding is rendered as emphasized `[FOUND]`
("confirmed") exactly when `"-->" in locations`; otherwise as `[INFO]`
("informational").  `true` means confirmed. -/
def isConfirmedFinding (history : List (List Char)) : Bool :=
  decide (pyIn arrowNeedle (locationsString history))

/-! ## UTF-8

`urllib.parse.quote_plus` percent-encodes the UTF-8 bytes of a string, and
`urllib.parse.unquote` assembles percent-escapes into bytes and decodes
them as UTF-8 with `errors='replace'` (ill-formed byte sequences become
U+FFFD, one replacement per maximal ill-formed subpart, as in CPython's
UTF-8 codec).  Bytes are modelled as `Nat` (always `< 256` where produced
by the encoder; the decoder is total on arbitrary `Nat`s, treating
anything that is not a well-formed sequence as ill-formed).
-/

/-- U+FFFD REPLACEMENT CHARACTER. -/
def replChar : Char := Char.ofNat 0xFFFD

/-- UTF-8 encoding of one code point (1–4 bytes). -/
def utf8EncodeChar (c : Char) : List Nat :=
  if c.toNat < 0x80 then [c.toNat]
  else if c.toNat < 0x800 then
    [0xC0 + c.toNat / 0x40, 0x80 + c.toNat % 0x40]
  else if c.toNat < 0x10000 then
    [0xE0 + c.toNat / 0x1000, 0x80 + c.toNat / 0x40 % 0x40, 0x80 + c.toNat % 0x40]
  else
    [0xF0 + c.toNat / 0x40000, 0x80 + c.toNat / 0x1000 % 0x40,
     0x80 + c.toNat / 0x40 % 0x40, 0x80 + c.toNat % 0x40]

/-- UTF-8 encoding of a string. -/
def utf8EncodeList (s : List Char) : List Nat := s.flatMap utf8EncodeChar

/-- A UTF-8 continuation byte. -/
def isCont (b : Nat) : Bool := 0x80 ≤ b && b < 0xC0

/-- Admissible first continuation byte after a three-byte lead (excludes
overlong encodings after `E0` and surrogates after `ED`). -/
def cont3Ok (b0 b1 : Nat) : Bool :=
  if b0 = 0xE0 then 0xA0 ≤ b1 && b1 < 0xC0
  else if b0 = 0xED then 0x80 ≤ b1 && b1 < 0xA0
  else isCont b1

/-- Admissible first continuation byte after a four-byte lead (excludes
overlong encodings after `F0` and beyond-U+10FFFF after `F4`). -/
def cont4Ok (b0 b1 : Nat) : Bool :=
  if b0 = 0xF0 then 0x90 ≤ b1 && b1 < 0xC0
  else if b0 = 0xF4 then 0x80 ≤ b1 && b1 < 0x90
  else isCont b1

/-- State of the incremental UTF-8 decoder: `start` between sequences;
`lead3 b0` / `lead4 b0` just after a three- or four-byte lead (the first
continuation byte has a `b0`-dependent admissible range); `tail k acc`
expecting `k ≥ 1` further plain continuation bytes with accumulator
`acc` (the code point so far, shifted). -/
inductive U8S
  | start
  | lead3 (b0 : Nat)
  | lead4 (b0 : Nat)
  | tail (k : Nat) (acc : Nat)
deriving Repr, DecidableEq

/-- Decoder transition from the `start` state on one byte. -/
def u8start (b : Nat) : List Char × U8S :=
  if b < 0x80 then ([Char.ofNat b], .start)
  else if b < 0xC2 then ([replChar], .start)
  else if b < 0xE0 then ([], .tail 1 (b - 0xC0))
  else if b < 0xF0 then ([], .lead3 b)
  else if b < 0xF5 then ([], .lead4 b)
  else ([replChar], .start)

/-- Decoder transition: emitted characters and next state.  On an
inadmissible byte the maximal well-formed prefix collapses to one U+FFFD
and the byte is reprocessed from `start` (CPython's `errors='replace'`,
substitution of maximal subparts). -/
def u8step : U8S → Nat → List Char × U8S
  | .start, b => u8start b
  | .lead3 b0, b =>
    if cont3Ok b0 b then ([], .tail 1 ((b0 - 0xE0) * 0x40 + (b - 0x80)))
    else (replChar :: (u8start b).1, (u8start b).2)
  | .lead4 b0, b =>
    if cont4Ok b0 b then ([], .tail 2 ((b0 - 0xF0) * 0x40 + (b - 0x80)))
    else (replChar :: (u8start b).1, (u8start b).2)
  | .tail k acc, b =>
    if isCont b then
      if k ≤ 1 then ([Char.ofNat (acc * 0x40 + (b - 0x80))], .start)
      else ([], .tail (k - 1) (acc * 0x40 + (b - 0x80)))
    else (replChar :: (u8start b).1, (u8start b).2)

/-- End of input: a pending incomplete sequence yields one U+FFFD. -/
def u8flush : U8S → List Char
  | .start => []
  | _ => [replChar]

/-- Run the incremental decoder from a state over a byte list. -/
def utf8DecodeSM (st : U8S) : List Nat → List Char
  | [] => u8flush st
  | b :: rest => (u8step st b).1 ++ utf8DecodeSM (u8step st b).2 rest

/-- UTF-8 decoding with `errors='replace'`. -/
def utf8Decode (bs : List Nat) : List Char := utf8DecodeSM .start bs

theorem utf8Decode_encodeChar_append (c : Char) (bs : List Nat) :
    utf8DecodeSM .start (utf8EncodeChar c ++ bs) = c :: utf8DecodeSM .start bs := by
  have hv : c.toNat < 0xd800 ∨ (0xdfff < c.toNat ∧ c.toNat < 0x110000) := c.valid
  by_cases h1 : c.toNat < 0x80
  · simp only [utf8EncodeChar, if_pos h1, List.cons_append, List.nil_append]
    rw [utf8DecodeSM]
    simp only [u8step, u8start, if_pos h1, Char.ofNat_toNat, List.cons_append,
      List.nil_append]
  · by_cases h2 : c.toNat < 0x800
    · simp only [utf8EncodeChar, if_neg h1, if_pos h2, List.cons_append, List.nil_append]
      rw [utf8DecodeSM]
      simp only [u8step, u8start]
      rw [if_neg (by omega), if_neg (by omega), if_pos (by omega)]
      rw [utf8DecodeSM]
      simp only [u8step]
      rw [if_pos (by simp only [isCont, Bool.and_eq_true, decide_eq_true_eq]; omega),
        if_pos (by omega)]
      have : (0xC0 + c.toNat / 0x40 - 0xC0) * 0x40 + (0x80 + c.toNat % 0x40 - 0x80)
          = c.toNat := by omega
      simp only [this, Char.ofNat_toNat, List.cons_append, List.nil_append]
    · by_cases h3 : c.toNat < 0x10000
      · simp only [utf8EncodeChar, if_neg h1, if_neg h2, if_pos h3, List.cons_append,
          List.nil_append]
        rw [utf8DecodeSM]
        simp only [u8step, u8start]
        rw [if_neg (by omega), if_neg (by omega), if_neg (by omega), if_pos (by omega)]
        rw [utf8DecodeSM]
        simp only [u8step]
        rw [if_pos ?hc1]
        case hc1 =>
          simp only [cont3Ok, isCont]
          split
          · simp only [Bool.and_eq_true, decide_eq_true_eq]; omega
          · split
            · rename_i hne hed
              simp only [Bool.and_eq_true, decide_eq_true_eq]
              have hd : c.toNat / 0x1000 = 0xD := by omega
              omega
            · simp only [Bool.and_eq_true, decide_eq_true_eq]; omega
        rw [utf8DecodeSM]
        simp only [u8step]
        rw [if_pos (by simp only [isCont, Bool.and_eq_true, decide_eq_true_eq]; omega),
        if_pos (by omega)]
        have : ((0xE0 + c.toNat / 0x1000 - 0xE0) * 0x40 +
            (0x80 + c.toNat / 0x40 % 0x40 - 0x80)) * 0x40 +
            (0x80 + c.toNat % 0x40 - 0x80) = c.toNat := by omega
        simp only [this, Char.ofNat_toNat, List.cons_append, List.nil_append]
      · simp only [utf8EncodeChar, if_neg h1, if_neg h2, if_neg h3, List.cons_append,
          List.nil_append]
        rw [utf8DecodeSM]
        simp only [u8step, u8start]
        rw [if_neg (by omega), if_neg (by omega), if_neg (by omega), if_neg (by omega),
          if_pos (by omega)]
        rw [utf8DecodeSM]
        simp only [u8step]
        rw [if_pos ?hc2]
        case hc2 =>
          simp only [cont4Ok, isCont]
          split
          · simp only [Bool.and_eq_true, decide_eq_true_eq]; omega
          · split
            · rename_i hne hf4
              simp only [Bool.and_eq_true, decide_eq_true_eq]
              have : c.toNat / 0x40000 = 4 := by omega
              omega
            · simp only [Bool.and_eq_true, decide_eq_true_eq]; omega
        rw [utf8DecodeSM]
        simp only [u8step]
        rw [if_pos (by simp only [isCont, Bool.and_eq_true, decide_eq_true_eq]; omega),
        if_neg (by omega)]
        rw [utf8DecodeSM]
        simp only [u8step]
        rw [if_pos (by simp only [isCont, Bool.and_eq_true, decide_eq_true_eq]; omega),
        if_pos (by omega)]
        have : (((0xF0 + c.toNat / 0x40000 - 0xF0) * 0x40 +
            (0x80 + c.toNat / 0x1000 % 0x40 - 0x80)) * 0x40 +
            (0x80 + c.toNat / 0x40 % 0x40 - 0x80)) * 0x40 +
            (0x80 + c.toNat % 0x40 - 0x80) = c.toNat := by omega
        simp only [this, Char.ofNat_toNat, List.cons_append, List.nil_append]

/-- Decoding inverts encoding on whole strings. -/
theorem utf8Decode_encodeList (s : List Char) : utf8Decode (utf8EncodeList s) = s := by
  induction s with
  | nil => rfl
  | cons c t ih =>
    simp only [utf8EncodeList, List.flatMap_cons, utf8Decode] at *
    rw [utf8Decode_encodeChar_append, ih]

/-! ## `quote_plus` and `unquote`

`urlencode` (with its defaults) encodes each key and value with
`quote_plus(s, safe='')`: the UTF-8 bytes of `s` are emitted with
`_ALWAYS_SAFE` bytes standing for themselves, space as `+`, and every
other byte as an uppercase `%XX` escape.  `parse_qsl` decodes each name
and value with `.replace('+', ' ')` followed by
`unquote(s, encoding='utf-8', errors='replace')`, which turns every `%XX`
(two hex digits, either case) into a byte — a `%` not followed by two hex
digits stays literal — and decodes the byte runs as UTF-8. -/

/-- Bytes `quote` never escapes (CPython's `_ALWAYS_SAFE`): ASCII
letters, digits, and `_.-~`. -/
def isSafeByte (b : Nat) : Bool :=
  (0x30 ≤ b && b ≤ 0x39) || (0x41 ≤ b && b ≤ 0x5A) || (0x61 ≤ b && b ≤ 0x7A) ||
  b = 0x5F || b = 0x2E || b = 0x2D || b = 0x7E

/-- Uppercase hexadecimal digit character for `n < 16`. -/
def hexDigit (n : Nat) : Char :=
  if n < 10 then Char.ofNat (0x30 + n) else Char.ofNat (0x37 + n)

/-- `quote_plus(s, safe='')` on one byte: safe bytes stand for themselves,
space becomes `+`, everything else `%XX`. -/
def quoteByte (b : Nat) : List Char :=
  if isSafeByte b then [Char.ofNat b]
  else if b = 0x20 then ['+']
  else ['%', hexDigit (b / 16), hexDigit (b % 16)]

/-- `urllib.parse.quote_plus(s, safe='')`, the `quote_via` used by
`urlencode`. -/
def quote_plus (s : List Char) : List Char :=
  (utf8EncodeList s).flatMap quoteByte

/-- Numeric value of a hexadecimal digit character (both cases), if it is
one (CPython's `_hextobyte` accepts both cases). -/
def hexVal (c : Char) : Option Nat :=
  if 0x30 ≤ c.toNat ∧ c.toNat ≤ 0x39 then some (c.toNat - 0x30)
  else if 0x41 ≤ c.toNat ∧ c.toNat ≤ 0x46 then some (c.toNat - 0x37)
  else if 0x61 ≤ c.toNat ∧ c.toNat ≤ 0x66 then some (c.toNat - 0x57)
  else none

/-- State of the `unquote` tokenizer: `base` outside an escape, `pct`
after `%`, `pctHex h1 v1` after `%` and one hex digit `h1` of value
`v1`. -/
inductive QS
  | base
  | pct
  | pctHex (h1 : Char) (v1 : Nat)
deriving Repr, DecidableEq

/-- Tokenizer transition from `base` on one character. -/
def qsStart (c : Char) : List (Char ⊕ Nat) × QS :=
  if c = '%' then ([], .pct) else ([Sum.inl c], .base)

/-- Tokenizer transition: emitted tokens (literal characters or decoded
bytes) and next state.  A failed escape emits its characters literally and
the current character is reprocessed from `base`. -/
def qsStep : QS → Char → List (Char ⊕ Nat) × QS
  | .base, c => qsStart c
  | .pct, c =>
    match hexVal c with
    | some v => ([], .pctHex c v)
    | none => (Sum.inl '%' :: (qsStart c).1, (qsStart c).2)
  | .pctHex h1 v1, c =>
    match hexVal c with
    | some v2 => ([Sum.inr (v1 * 16 + v2)], .base)
    | none => (Sum.inl '%' :: Sum.inl h1 :: (qsStart c).1, (qsStart c).2)

/-- End of input: a pending partial escape is literal. -/
def qsFlush : QS → List (Char ⊕ Nat)
  | .base => []
  | .pct => [Sum.inl '%']
  | .pctHex h1 _ => [Sum.inl '%', Sum.inl h1]

/-- Run the tokenizer from a state over a character list. -/
def unquoteTokensSM (st : QS) : List Char → List (Char ⊕ Nat)
  | [] => qsFlush st
  | c :: rest => (qsStep st c).1 ++ unquoteTokensSM (qsStep st c).2 rest

/-- Tokenize a string for `unquote`. -/
def unquoteTokens (s : List Char) : List (Char ⊕ Nat) := unquoteTokensSM .base s

/-- Reassemble tokens: literal characters pass through; each maximal run
of percent-decoded bytes is decoded as UTF-8 (with replacement), exactly
as CPython decodes the byte runs of `unquote_to_bytes`. -/
def detokens (acc : List Nat) : List (Char ⊕ Nat) → List Char
  | [] => utf8Decode acc.reverse
  | Sum.inl c :: rest => utf8Decode acc.reverse ++ c :: detokens [] rest
  | Sum.inr b :: rest => detokens (b :: acc) rest

/-- `urllib.parse.unquote(s, encoding='utf-8', errors='replace')`. -/
def pyUnquote (s : List Char) : List Char := detokens [] (unquoteTokens s)

/-- `s.replace('+', ' ')`, performed by `parse_qsl` on each name and value
before `unquote` (the composite being `unquote_plus`). -/
def plusToSpace (s : List Char) : List Char :=
  s.map (fun c => if c = '+' then ' ' else c)

/-- `urllib.parse.unquote_plus`. -/
def unquote_plus (s : List Char) : List Char := pyUnquote (plusToSpace s)

/-! ### Round trip: `unquote_plus` after `quote_plus` is the identity -/

theorem toNat_ofNat_lt {n : Nat} (h : n < 0xd800) : (Char.ofNat n).toNat = n := by
  have hv : n.isValidChar := Or.inl h
  unfold Char.ofNat
  rw [dif_pos hv]
  rfl

theorem ofNat_eq_char_iff {n : Nat} (h : n < 0xd800) (c : Char) :
    Char.ofNat n = c ↔ n = c.toNat := by
  constructor
  · intro he
    rw [← he, toNat_ofNat_lt h]
  · intro he
    subst he
    exact Char.ofNat_toNat c

/-- Bytes produced by the UTF-8 encoder are bytes. -/
theorem utf8EncodeChar_lt (c : Char) : ∀ b ∈ utf8EncodeChar c, b < 256 := by
  have hv : c.toNat < 0xd800 ∨ (0xdfff < c.toNat ∧ c.toNat < 0x110000) := c.valid
  intro b hb
  unfold utf8EncodeChar at hb
  split at hb
  · simp at hb; omega
  · split at hb
    · simp at hb
      rcases hb with rfl | rfl <;> omega
    · split at hb
      · simp at hb
        rcases hb with rfl | rfl | rfl <;> omega
      · simp at hb
        rcases hb with rfl | rfl | rfl | rfl <;> omega

/-- Multi-byte sequences consist of high bytes. -/
theorem utf8EncodeChar_high (c : Char) (h : 0x80 ≤ c.toNat) :
    ∀ b ∈ utf8EncodeChar c, 0x80 ≤ b := by
  intro b hb
  unfold utf8EncodeChar at hb
  split at hb
  · omega
  · split at hb
    · simp at hb
      rcases hb with rfl | rfl <;> omega
    · split at hb
      · simp at hb
        rcases hb with rfl | rfl | rfl <;> omega
      · simp at hb
        rcases hb with rfl | rfl | rfl | rfl <;> omega

theorem hexDigit_toNat {n : Nat} (h : n < 16) :
    (hexDigit n).toNat = if n < 10 then 0x30 + n else 0x37 + n := by
  unfold hexDigit
  split
  · rw [toNat_ofNat_lt (by omega)]
  · rw [toNat_ofNat_lt (by omega)]

theorem hexVal_hexDigit {n : Nat} (h : n < 16) : hexVal (hexDigit n) = some n := by
  by_cases h10 : n < 10
  · have ht : (hexDigit n).toNat = 0x30 + n := by
      rw [hexDigit_toNat h, if_pos h10]
    unfold hexVal
    rw [ht, if_pos (by omega)]
    congr 1
    omega
  · have ht : (hexDigit n).toNat = 0x37 + n := by
      rw [hexDigit_toNat h, if_neg h10]
    unfold hexVal
    rw [ht, if_neg (by omega), if_pos (by omega)]
    congr 1
    omega

/-- Safe-or-space byte: encoded by `quote_plus` as a single character. -/
def isSafePlusByte (b : Nat) : Bool := isSafeByte b || b == 0x20

/-- `quote_plus` followed by `+`-to-space restoration, per byte. -/
def quoteByteSp (b : Nat) : List Char :=
  if isSafePlusByte b then [Char.ofNat b]
  else ['%', hexDigit (b / 16), hexDigit (b % 16)]

/-- The token a byte of the encoding becomes after tokenization. -/
def tokOf (b : Nat) : Char ⊕ Nat :=
  if isSafePlusByte b then Sum.inl (Char.ofNat b) else Sum.inr b

theorem plusToSpace_quoteByte {b : Nat} (hb : b < 256) :
    plusToSpace (quoteByte b) = quoteByteSp b := by
  by_cases hs : isSafeByte b
  · have hplus : Char.ofNat b ≠ '+' := by
      intro he
      rw [ofNat_eq_char_iff (by omega)] at he
      have hb43 : b = 43 := he
      subst hb43
      exact absurd hs (by decide)
    simp only [quoteByte, quoteByteSp, plusToSpace, isSafePlusByte, hs, Bool.true_or,
      if_pos, if_true, List.map_cons, List.map_nil, if_neg hplus]
  · by_cases hsp : b = 0x20
    · subst hsp
      have hsf : isSafePlusByte 0x20 = true := by decide
      simp only [quoteByte, quoteByteSp, plusToSpace, if_neg hs, hsf, if_true,
        List.map_cons, List.map_nil]
    · have h16a : b / 16 < 16 := by omega
      have h16b : b % 16 < 16 := by omega
      have hpct : ('%' : Char) ≠ '+' := by decide
      have hhx : ∀ k : Nat, k < 16 → hexDigit k ≠ '+' := by
        intro k hk he
        have h1 := hexDigit_toNat hk
        rw [he] at h1
        have h43 : ('+' : Char).toNat = 43 := by decide
        rw [h43] at h1
        split at h1 <;> omega
      have hsf : isSafePlusByte b = false := by
        simp only [isSafePlusByte, hs, Bool.false_or, beq_iff_eq]
        simpa using hsp
      simp only [quoteByte, quoteByteSp, plusToSpace, if_neg hs, if_neg hsp, hsf,
        Bool.false_eq_true, if_false, List.map_cons, List.map_nil,
        if_neg hpct, if_neg (hhx _ h16a), if_neg (hhx _ h16b)]

theorem plusToSpace_flatMap_quoteByte :
    ∀ bs : List Nat, (∀ b ∈ bs, b < 256) →
      plusToSpace (bs.flatMap quoteByte) = bs.flatMap quoteByteSp := by
  intro bs h
  induction bs with
  | nil => rfl
  | cons b t ih =>
    rw [List.flatMap_cons, List.flatMap_cons]
    have hsplit : plusToSpace (quoteByte b ++ t.flatMap quoteByte)
        = plusToSpace (quoteByte b) ++ plusToSpace (t.flatMap quoteByte) :=
      List.map_append _ _ _
    rw [hsplit, plusToSpace_quoteByte (h b (List.mem_cons_self b t)),
      ih (fun x hx => h x (List.mem_cons_of_mem b hx))]

/-- If a tokenizer step emits nothing, it leaves the `base` state. -/
theorem qsStep_empty_state (st : QS) (c : Char) :
    (qsStep st c).1 = [] → (qsStep st c).2 ≠ .base := by
  cases st with
  | base =>
    simp only [qsStep, qsStart]
    split
    · intro _; simp
    · intro h; exact absurd h (by simp)
  | pct =>
    simp only [qsStep]
    cases hv : hexVal c with
    | some v => intro _; simp
    | none => intro h; exact absurd h (by simp)
  | pctHex h1 v1 =>
    simp only [qsStep]
    cases hv : hexVal c with
    | some v => intro h; exact absurd h (by simp)
    | none => intro h; exact absurd h (by simp)

theorem unquoteTokensSM_ne_nil :
    ∀ (s : List Char) (st : QS), (s ≠ [] ∨ st ≠ .base) → unquoteTokensSM st s ≠ [] := by
  intro s
  induction s with
  | nil =>
    intro st h
    rcases h with h | h
    · exact absurd rfl h
    · cases st with
      | base => exact absurd rfl h
      | pct => simp [unquoteTokensSM, qsFlush]
      | pctHex h1 v1 => simp [unquoteTokensSM, qsFlush]
  | cons c rest ih =>
    intro st _
    rw [unquoteTokensSM]
    intro hcontra
    rcases List.append_eq_nil.mp hcontra with ⟨h1, h2⟩
    exact ih ((qsStep st c).2) (Or.inr (qsStep_empty_state st c h1)) h2

/-- If a decoder step emits nothing, it leaves the `start` state. -/
theorem u8step_empty_state (st : U8S) (b : Nat) :
    (u8step st b).1 = [] → (u8step st b).2 ≠ .start := by
  cases st with
  | start =>
    simp only [u8step, u8start]
    split
    · intro h; exact absurd h (by simp)
    · split
      · intro h; exact absurd h (by simp)
      · split
        · intro _; simp
        · split
          · intro _; simp
          · split
            · intro _; simp
            · intro h; exact absurd h (by simp)
  | lead3 b0 =>
    simp only [u8step]
    split
    · intro _; simp
    · intro h; exact absurd h (by simp)
  | lead4 b0 =>
    simp only [u8step]
    split
    · intro _; simp
    · intro h; exact absurd h (by simp)
  | tail k acc =>
    simp only [u8step]
    split
    · split
      · intro h; exact absurd h (by simp)
      · intro _; simp
    · intro h; exact absurd h (by simp)

theorem utf8DecodeSM_ne_nil :
    ∀ (bs : List Nat) (st : U8S), (bs ≠ [] ∨ st ≠ .start) → utf8DecodeSM st bs ≠ [] := by
  intro bs
  induction bs with
  | nil =>
    intro st h
    rcases h with h | h
    · exact absurd rfl h
    · cases st with
      | start => exact absurd rfl h
      | lead3 b0 => simp [utf8DecodeSM, u8flush]
      | lead4 b0 => simp [utf8DecodeSM, u8flush]
      | tail k acc => simp [utf8DecodeSM, u8flush]
  | cons b rest ih =>
    intro st _
    rw [utf8DecodeSM]
    intro hcontra
    rcases List.append_eq_nil.mp hcontra with ⟨h1, h2⟩
    exact ih ((u8step st b).2) (Or.inr (u8step_empty_state st b h1)) h2

theorem detokens_ne_nil :
    ∀ (toks : List (Char ⊕ Nat)) (acc : List Nat),
      (toks ≠ [] ∨ acc ≠ []) → detokens acc toks ≠ [] := by
  intro toks
  induction toks with
  | nil =>
    intro acc h
    rcases h with h | h
    · exact absurd rfl h
    · rw [detokens]
      exact utf8DecodeSM_ne_nil acc.reverse .start (Or.inl (by simpa using h))
  | cons tk rest ih =>
    intro acc _
    cases tk with
    | inl c =>
      rw [detokens]
      simp
    | inr b =>
      rw [detokens]
      exact ih (b :: acc) (Or.inr (by simp))

theorem unquote_plus_ne_nil (s : List Char) (h : s ≠ []) : unquote_plus s ≠ [] := by
  unfold unquote_plus pyUnquote unquoteTokens
  apply detokens_ne_nil _ _ (Or.inl _)
  apply unquoteTokensSM_ne_nil _ _ (Or.inl _)
  simpa [plusToSpace] using h

theorem isSafePlusByte_lt {b : Nat} (h : isSafePlusByte b) : b < 0x80 := by
  simp only [isSafePlusByte, isSafeByte, Bool.or_eq_true, Bool.and_eq_true,
    decide_eq_true_eq, beq_iff_eq] at h
  omega

theorem isSafePlusByte_high {b : Nat} (h : 0x80 ≤ b) : isSafePlusByte b = false := by
  cases hb2 : isSafePlusByte b with
  | false => rfl
  | true => exact absurd (isSafePlusByte_lt hb2) (by omega)

theorem unquoteTokensSM_quoteSp :
    ∀ bs : List Nat, (∀ b ∈ bs, b < 256) →
      unquoteTokensSM .base (bs.flatMap quoteByteSp) = bs.map tokOf := by
  intro bs
  induction bs with
  | nil => intro _; rfl
  | cons b t ih =>
    intro h
    have hb : b < 256 := h b (List.mem_cons_self b t)
    have ht : ∀ x ∈ t, x < 256 := fun x hx => h x (List.mem_cons_of_mem b hx)
    rw [List.flatMap_cons, List.map_cons]
    by_cases hl : isSafePlusByte b
    · have hmod : Char.ofNat b ≠ '%' := by
        intro he
        rw [ofNat_eq_char_iff (by omega)] at he
        have hb37 : b = 37 := he
        subst hb37
        exact absurd hl (by decide)
      rw [show quoteByteSp b = [Char.ofNat b] from by rw [quoteByteSp, if_pos hl]]
      rw [List.singleton_append, unquoteTokensSM]
      simp only [qsStep, qsStart, if_neg hmod]
      rw [show tokOf b = Sum.inl (Char.ofNat b) from by rw [tokOf, if_pos hl]]
      rw [List.singleton_append, ih ht]
    · have h16a : b / 16 < 16 := by omega
      have h16b : b % 16 < 16 := by omega
      rw [show quoteByteSp b = ['%', hexDigit (b / 16), hexDigit (b % 16)] from by
        rw [quoteByteSp, if_neg (by simpa using hl)]]
      have hbv : b / 16 * 16 + b % 16 = b := by omega
      have s1 : qsStep QS.base '%' = ([], QS.pct) := rfl
      have s2 : qsStep QS.pct (hexDigit (b / 16))
          = ([], QS.pctHex (hexDigit (b / 16)) (b / 16)) := by
        simp only [qsStep, hexVal_hexDigit h16a]
      have s3 : qsStep (QS.pctHex (hexDigit (b / 16)) (b / 16)) (hexDigit (b % 16))
          = ([Sum.inr b], QS.base) := by
        simp only [qsStep, hexVal_hexDigit h16b, hbv]
      rw [List.cons_append, List.cons_append, List.cons_append, List.nil_append]
      simp only [unquoteTokensSM, s1, s2, s3, List.nil_append, List.singleton_append]
      rw [show tokOf b = Sum.inr b from by rw [tokOf, if_neg (by simpa using hl)]]
      rw [ih ht]

theorem map_tokOf_encodeChar_lit {c : Char} (h : isSafePlusByte c.toNat) :
    (utf8EncodeChar c).map tokOf = [Sum.inl c] := by
  have hlt : c.toNat < 0x80 := isSafePlusByte_lt h
  rw [show utf8EncodeChar c = [c.toNat] from by rw [utf8EncodeChar, if_pos hlt]]
  rw [List.map_cons, List.map_nil,
    show tokOf c.toNat = Sum.inl (Char.ofNat c.toNat) from by rw [tokOf, if_pos h]]
  rw [Char.ofNat_toNat]

theorem map_tokOf_encodeChar_nonlit {c : Char} (h : isSafePlusByte c.toNat = false) :
    (utf8EncodeChar c).map tokOf = (utf8EncodeChar c).map Sum.inr := by
  apply List.map_congr_left
  intro b hb
  by_cases hlt : c.toNat < 0x80
  · have : b = c.toNat := by
      rw [show utf8EncodeChar c = [c.toNat] from by
        rw [utf8EncodeChar, if_pos hlt]] at hb
      simpa using hb
    subst this
    rw [tokOf, if_neg (by simp [h])]
  · have hhigh : 0x80 ≤ b := utf8EncodeChar_high c (by omega) b hb
    rw [tokOf, if_neg (by simp [isSafePlusByte_high hhigh])]

theorem utf8EncodeList_append (u v : List Char) :
    utf8EncodeList (u ++ v) = utf8EncodeList u ++ utf8EncodeList v := by
  simp [utf8EncodeList]

theorem map_tokOf_encodeList_nonlit {u : List Char}
    (h : ∀ c ∈ u, isSafePlusByte c.toNat = false) :
    (utf8EncodeList u).map tokOf = (utf8EncodeList u).map Sum.inr := by
  induction u with
  | nil => rfl
  | cons c t ih =>
    rw [show (c :: t) = [c] ++ t from rfl, utf8EncodeList_append, List.map_append,
      List.map_append]
    rw [show utf8EncodeList [c] = utf8EncodeChar c from by simp [utf8EncodeList]]
    rw [map_tokOf_encodeChar_nonlit (h c (List.mem_cons_self c t)),
      ih (fun x hx => h x (List.mem_cons_of_mem c hx))]

theorem detokens_map_inr_append (bs : List Nat) :
    ∀ (acc : List Nat) (T : List (Char ⊕ Nat)),
      detokens acc (bs.map Sum.inr ++ T) = detokens (bs.reverse ++ acc) T := by
  induction bs with
  | nil => intro acc T; simp
  | cons b t ih =>
    intro acc T
    rw [List.map_cons, List.cons_append, detokens, ih]
    congr 1
    simp

theorem dropWhile_head_false {α : Type} (p : α → Bool) :
    ∀ (l : List α) (w : α) (t : List α), l.dropWhile p = w :: t → p w = false := by
  intro l
  induction l with
  | nil => intro w t h; simp [List.dropWhile] at h
  | cons a l ih =>
    intro w t h
    rw [List.dropWhile_cons] at h
    split at h
    · exact ih w t h
    · rename_i hpa
      cases h
      simpa using hpa

theorem detokens_tokOf_encAux : ∀ (n : Nat) (s : List Char), s.length ≤ n →
    detokens [] ((utf8EncodeList s).map tokOf) = s := by
  intro n
  induction n with
  | zero =>
    intro s hs
    have : s = [] := List.length_eq_zero.mp (Nat.le_zero.mp hs)
    subst this
    rfl
  | succ n ih =>
    intro s hs
    cases s with
    | nil => rfl
    | cons c t =>
      by_cases hc : isSafePlusByte c.toNat
      · have he : utf8EncodeList (c :: t) = utf8EncodeChar c ++ utf8EncodeList t := by
          simp [utf8EncodeList]
        rw [he, List.map_append, map_tokOf_encodeChar_lit hc, List.singleton_append,
          detokens]
        rw [show utf8Decode (([] : List Nat).reverse) = [] from rfl, List.nil_append]
        rw [ih t (by simpa using Nat.le_of_succ_le_succ hs)]
      · have hcf : isSafePlusByte c.toNat = false := by simpa using hc
        set p : Char → Bool := fun x => !(isSafePlusByte x.toNat) with hp
        have hsplit : (c :: t).takeWhile p ++ (c :: t).dropWhile p = c :: t :=
          List.takeWhile_append_dropWhile p (c :: t)
        have hu : ∀ x ∈ (c :: t).takeWhile p, isSafePlusByte x.toNat = false := by
          intro x hx
          have hmem := List.mem_takeWhile_imp hx
          rw [hp] at hmem
          simpa using hmem
        have hune : (c :: t).takeWhile p = c :: t.takeWhile p := by
          rw [List.takeWhile_cons, if_pos (by rw [hp]; simpa using hcf)]
        have hlen : ((c :: t).takeWhile p).length + ((c :: t).dropWhile p).length
            = (c :: t).length := by
          rw [← List.length_append, hsplit]
        rw [← hsplit, utf8EncodeList_append, List.map_append,
          map_tokOf_encodeList_nonlit hu, detokens_map_inr_append]
        cases hv : (c :: t).dropWhile p with
        | nil =>
          rw [show utf8EncodeList ([] : List Char) = [] from rfl, List.map_nil, detokens]
          rw [List.append_nil, List.reverse_reverse, utf8Decode_encodeList,
            List.append_nil]
        | cons w v2 =>
          have hw : isSafePlusByte w.toNat = true := by
            have hd := dropWhile_head_false p (c :: t) w v2 hv
            rw [hp] at hd
            simpa using hd
          have he2 : utf8EncodeList (w :: v2) = utf8EncodeChar w ++ utf8EncodeList v2 := by
            simp [utf8EncodeList]
          rw [he2, List.map_append, map_tokOf_encodeChar_lit hw, List.singleton_append,
            detokens]
          rw [List.append_nil, List.reverse_reverse, utf8Decode_encodeList]
          have hv2 : v2.length ≤ n := by
            rw [hv] at hlen
            have h1 : 1 ≤ ((c :: t).takeWhile p).length := by
              rw [hune]
              simp
            simp only [List.length_cons] at hlen hs
            omega
          rw [ih v2 hv2]

theorem detokens_tokOf_enc (s : List Char) :
    detokens [] ((utf8EncodeList s).map tokOf) = s :=
  detokens_tokOf_encAux s.length s le_rfl

theorem utf8EncodeList_lt (s : List Char) : ∀ b ∈ utf8EncodeList s, b < 256 := by
  intro b hb
  simp only [utf8EncodeList, List.mem_flatMap] at hb
  obtain ⟨c, _, hbc⟩ := hb
  exact utf8EncodeChar_lt c b hbc

/-- Round trip: decoding with `unquote_plus` inverts `quote_plus` on every
string (the key/value round trip inside `parse_qsl` after `urlencode`). -/
theorem unquote_plus_quote_plus (s : List Char) : unquote_plus (quote_plus s) = s := by
  unfold unquote_plus pyUnquote unquoteTokens quote_plus
  rw [plusToSpace_flatMap_quoteByte _ (utf8EncodeList_lt s),
    unquoteTokensSM_quoteSp _ (utf8EncodeList_lt s)]
  exact detokens_tokOf_enc s

/-! ## `parse_qsl` and `urlencode`

```python
params = parse_qsl(parsed_url.query)          # keep_blank_values=False
fuzzed_query = urlencode(fuzzed_params)       # quote_via=quote_plus, safe=''
```

CPython's `parse_qsl` splits the query on `&` (bpo-42967: `&` only),
skips empty fields, skips fields without `=` (unless `keep_blank_values`,
then the value is empty), skips fields with an empty value unless
`keep_blank_values`, and `+`-decodes and unquotes each name and value.
`urlencode` joins `quote_plus(k) + '=' + quote_plus(v)` with `&`. -/

/-- Prepend a character onto the first piece of a split. -/
def consHead (c : Char) : List (List Char) → List (List Char)
  | [] => [[c]]
  | h :: t => (c :: h) :: t

/-- Python `s.split(sep)` for a one-character separator
(`''.split(sep) == ['']`). -/
def splitSep (sep : Char) : List Char → List (List Char)
  | [] => [[]]
  | c :: rest =>
    if c = sep then [] :: splitSep sep rest
    else consHead c (splitSep sep rest)

/-- One field of `parse_qsl`: `none` when the field is skipped.  The name
is the part before the first `=`, the value the part after it. -/
def parseField (keep_blank_values : Bool) (field : List Char) :
    Option (List Char × List Char) :=
  if field = [] then none
  else if field.contains '=' then
    if !((field.dropWhile (· != '=')).drop 1).isEmpty || keep_blank_values then
      some (unquote_plus (field.takeWhile (· != '=')),
        unquote_plus ((field.dropWhile (· != '=')).drop 1))
    else none
  else if keep_blank_values then some (unquote_plus field, []) else none

/-- `urllib.parse.parse_qsl(qs, keep_blank_values)`. -/
def parse_qsl (qs : List Char) (keep_blank_values : Bool) :
    List (List Char × List Char) :=
  (splitSep '&' qs).filterMap (parseField keep_blank_values)

/-- `urllib.parse.urlencode(query)` with its default
`quote_via=quote_plus` and `safe=''`. -/
def urlencode (query : List (List Char × List Char)) : List Char :=
  List.intercalate ['&'] (query.map (fun kv => quote_plus kv.1 ++ '=' :: quote_plus kv.2))

/-! ### Characters `quote_plus` can output -/

theorem quote_plus_toNat (s : List Char) :
    ∀ c ∈ quote_plus s, isSafeByte c.toNat = true ∨ c.toNat = 43 ∨ c.toNat = 37 := by
  intro c hc
  unfold quote_plus at hc
  simp only [List.mem_flatMap] at hc
  obtain ⟨b, hb, hcb⟩ := hc
  have hb256 : b < 256 := utf8EncodeList_lt s b hb
  unfold quoteByte at hcb
  split at hcb
  · rename_i hs
    left
    rw [show c = Char.ofNat b from by simpa using hcb, toNat_ofNat_lt (by omega)]
    exact hs
  · split at hcb
    · right; left
      rw [show c = '+' from by simpa using hcb]
      rfl
    · simp only [List.mem_cons, List.not_mem_nil, or_false] at hcb
      rcases hcb with rfl | rfl | rfl
      · right; right; rfl
      · left
        rw [hexDigit_toNat (by omega)]
        split <;> (simp only [isSafeByte]; norm_num) <;> omega
      · left
        rw [hexDigit_toNat (by omega)]
        split <;> (simp only [isSafeByte]; norm_num) <;> omega

/-- Characters `quote_plus` outputs are never structural delimiters. -/
theorem quote_plus_not_mem (s : List Char) (c0 : Char)
    (hnot : isSafeByte c0.toNat = false ∧ c0.toNat ≠ 43 ∧ c0.toNat ≠ 37) :
    ∀ c ∈ quote_plus s, c ≠ c0 := by
  intro c hc he
  subst he
  have h1 := quote_plus_toNat s c hc
  rcases h1 with h | h | h
  · rw [hnot.1] at h; cases h
  · exact hnot.2.1 h
  · exact hnot.2.2 h

theorem quote_plus_ne_nil (s : List Char) (h : s ≠ []) : quote_plus s ≠ [] := by
  cases s with
  | nil => exact absurd rfl h
  | cons c t =>
    unfold quote_plus
    have he : utf8EncodeList (c :: t) = utf8EncodeChar c ++ utf8EncodeList t := by
      simp [utf8EncodeList]
    rw [he]
    have hnn : utf8EncodeChar c ≠ [] := by
      unfold utf8EncodeChar
      split
      · simp
      · split
        · simp
        · split <;> simp
    cases henc : utf8EncodeChar c with
    | nil => exact absurd henc hnn
    | cons b bs =>
      rw [List.cons_append, List.flatMap_cons]
      have : quoteByte b ≠ [] := by
        unfold quoteByte
        split
        · simp
        · split <;> simp
      intro hcontra
      rcases List.append_eq_nil.mp hcontra with ⟨h1, _⟩
      exact this h1

/-! ### `parse_qsl` after `urlencode` -/

theorem splitSep_sepFree (sep : Char) :
    ∀ f : List Char, (∀ c ∈ f, c ≠ sep) → splitSep sep f = [f] := by
  intro f
  induction f with
  | nil => intro _; rfl
  | cons c t ih =>
    intro h
    rw [splitSep, if_neg (h c (List.mem_cons_self c t)),
      ih (fun x hx => h x (List.mem_cons_of_mem c hx))]
    rfl

theorem splitSep_append_sep (sep : Char) :
    ∀ (f rest : List Char), (∀ c ∈ f, c ≠ sep) →
      splitSep sep (f ++ sep :: rest) = f :: splitSep sep rest := by
  intro f
  induction f with
  | nil =>
    intro rest _
    rw [List.nil_append, splitSep, if_pos rfl]
  | cons c t ih =>
    intro rest h
    rw [List.cons_append, splitSep, if_neg (h c (List.mem_cons_self c t)),
      ih rest (fun x hx => h x (List.mem_cons_of_mem c hx))]
    rfl

theorem splitSep_intercalate (sep : Char) :
    ∀ (fields : List (List Char)), fields ≠ [] →
      (∀ f ∈ fields, ∀ c ∈ f, c ≠ sep) →
      splitSep sep (List.intercalate [sep] fields) = fields := by
  intro fields
  induction fields with
  | nil => intro h _; exact absurd rfl h
  | cons f fs ih =>
    intro _ h
    cases fs with
    | nil =>
      rw [show List.intercalate [sep] [f] = f from by simp [List.intercalate]]
      exact splitSep_sepFree sep f (h f (List.mem_cons_self f []))
    | cons f2 fs2 =>
      have hstep : List.intercalate [sep] (f :: f2 :: fs2)
          = f ++ sep :: List.intercalate [sep] (f2 :: fs2) := by
        simp [List.intercalate, List.intersperse]
      rw [hstep, splitSep_append_sep sep f _ (h f (List.mem_cons_self f _)),
        ih (by simp) (fun g hg c hc => h g (List.mem_cons_of_mem f hg) c hc)]

theorem parseField_encoded (k v : List Char) (hv : v ≠ []) :
    parseField false (quote_plus k ++ '=' :: quote_plus v) = some (k, v) := by
  have hk : ∀ c ∈ quote_plus k, c ≠ '=' :=
    quote_plus_not_mem k '=' ⟨by decide, by decide, by decide⟩
  have hkB : ∀ c ∈ quote_plus k, (c != '=') = true := by
    intro c hc
    simpa [bne_iff_ne] using hk c hc
  have hfne : quote_plus k ++ '=' :: quote_plus v ≠ [] := by simp
  have hcontains : (quote_plus k ++ '=' :: quote_plus v).contains '=' = true := by
    simp
  have hname : (quote_plus k ++ '=' :: quote_plus v).takeWhile (· != '=')
      = quote_plus k := by
    rw [List.takeWhile_append_of_pos hkB, List.takeWhile_cons]
    simp
  have hvalue : ((quote_plus k ++ '=' :: quote_plus v).dropWhile (· != '=')).drop 1
      = quote_plus v := by
    rw [List.dropWhile_append_of_pos hkB, List.dropWhile_cons]
    simp
  have hvne : quote_plus v ≠ [] := quote_plus_ne_nil v hv
  unfold parseField
  rw [if_neg hfne, if_pos hcontains, hname, hvalue]
  rw [if_pos (by simp [List.isEmpty_iff, hvne])]
  rw [unquote_plus_quote_plus, unquote_plus_quote_plus]

theorem filterMap_parseField_encoded :
    ∀ pairs : List (List Char × List Char), (∀ kv ∈ pairs, kv.2 ≠ []) →
      (pairs.map (fun kv => quote_plus kv.1 ++ '=' :: quote_plus kv.2)).filterMap
        (parseField false) = pairs := by
  intro pairs
  induction pairs with
  | nil => intro _; rfl
  | cons kv rest ih =>
    intro h
    rw [List.map_cons, List.filterMap_cons,
      parseField_encoded kv.1 kv.2 (h kv (List.mem_cons_self kv rest)),
      ih (fun x hx => h x (List.mem_cons_of_mem kv hx))]

/-- `parse_qsl` inverts `urlencode` when every value is nonempty. -/
theorem parse_qsl_urlencode (pairs : List (List Char × List Char))
    (h : ∀ kv ∈ pairs, kv.2 ≠ []) :
    parse_qsl (urlencode pairs) false = pairs := by
  cases pairs with
  | nil => rfl
  | cons kv rest =>
    unfold parse_qsl urlencode
    rw [splitSep_intercalate '&' _ (by simp) ?hfree]
    · exact filterMap_parseField_encoded (kv :: rest) h
    case hfree =>
      intro f hf c hc
      simp only [List.mem_map] at hf
      obtain ⟨kv2, _, hkv2⟩ := hf
      subst hkv2
      rcases List.mem_append.mp hc with hc1 | hc2
      · exact quote_plus_not_mem kv2.1 '&' ⟨by decide, by decide, by decide⟩ c hc1
      · rcases List.mem_cons.mp hc2 with rfl | hc3
        · decide
        · exact quote_plus_not_mem kv2.2 '&' ⟨by decide, by decide, by decide⟩ c hc3

/-! ### `keep_blank_values=False` versus `keep_blank_values=True` -/

theorem parseField_false_bind (f : List Char) :
    parseField false f = (parseField true f).bind
      (fun kv => if kv.2.isEmpty then none else some kv) := by
  unfold parseField
  by_cases hf : f = []
  · rw [if_pos hf, if_pos hf]
    rfl
  · rw [if_neg hf, if_neg hf]
    by_cases hc : f.contains '=' = true
    · rw [if_pos hc, if_pos hc]
      by_cases hv : ((f.dropWhile (· != '=')).drop 1).isEmpty
      · have hvnil : (f.dropWhile (· != '=')).drop 1 = [] := by
          simpa [List.isEmpty_iff] using hv
        rw [hv]
        simp only [Bool.not_true, Bool.false_or, Bool.true_or, if_pos, if_true,
          Option.some_bind]
        rw [hvnil]
        simp [unquote_plus, pyUnquote, unquoteTokens, plusToSpace, unquoteTokensSM,
          qsFlush, detokens, utf8Decode, utf8DecodeSM, u8flush]
      · have hvne : (f.dropWhile (· != '=')).drop 1 ≠ [] := by
          simpa [List.isEmpty_iff] using hv
        have huqne : unquote_plus ((f.dropWhile (· != '=')).drop 1) ≠ [] :=
          unquote_plus_ne_nil _ hvne
        rw [show ((f.dropWhile (· != '=')).drop 1).isEmpty = false from by
          simpa [List.isEmpty_iff] using hvne]
        simp only [Bool.not_false, Bool.true_or, if_true, Option.some_bind]
        rw [if_neg (by simpa [List.isEmpty_iff] using huqne)]
    · rw [if_neg hc, if_neg hc]
      simp

theorem parse_qsl_false_filter (qs : List Char) :
    parse_qsl qs false = (parse_qsl qs true).filter (fun kv => !kv.2.isEmpty) := by
  unfold parse_qsl
  generalize splitSep '&' qs = fields
  induction fields with
  | nil => rfl
  | cons f fs ih =>
    rw [List.filterMap_cons, List.filterMap_cons, parseField_false_bind f]
    cases hp : parseField true f with
    | none =>
      simpa using ih
    | some kv =>
      simp only [Option.some_bind]
      by_cases hkv : kv.2.isEmpty
      · rw [if_pos hkv, List.filter_cons, show (!kv.2.isEmpty) = false from by
          simp [hkv]]
        simpa using ih
      · rw [if_neg hkv, List.filter_cons, show (!kv.2.isEmpty) = true from by
          simpa using hkv]
        rw [ih]
        simp

/-! ## `urlsplit` / `urlparse` / `urlunsplit` / `urlunparse`

Modelled from CPython 3.11.4+ `urllib/parse.py`:

```python
url = url.lstrip(_WHATWG_C0_CONTROL_OR_SPACE)        # gh-102153
for b in _UNSAFE_URL_BYTES_TO_REMOVE:                # bpo-43882: \t \r \n
    url = url.replace(b, "")
i = url.find(':')
if i > 0 and url[0].isascii() and url[0].isalpha():  # gh-99418
    for c in url[:i]:
        if c not in scheme_chars:
            break
    else:
        scheme, url = url[:i].lower(), url[i+1:]
if url[:2] == '//':
    netloc, url = _splitnetloc(url, 2)               # up to next / ? #
    if (('[' in netloc and ']' not in netloc) or
            (']' in netloc and '[' not in netloc)):
        raise ValueError("Invalid IPv6 URL")
if allow_fragments and '#' in url:
    url, fragment = url.split('#', 1)
if '?' in url:
    url, query = url.split('?', 1)
```

`urlparse` additionally splits `params` off the path (`_splitparams`:
the part after the first `;` of the last `/`-separated segment), and the
`urlunsplit` / `urlunparse` assemblers are modelled verbatim. -/

/-- `lstrip(_WHATWG_C0_CONTROL_OR_SPACE)` followed by removal of ASCII
tab, CR and LF anywhere (`url.replace(b, "")` for the three bytes). -/
def sanitizeUrl (url : List Char) : List Char :=
  (url.dropWhile (fun c => c.toNat ≤ 0x20)).filter
    (fun c => !(c = '\t' || c = '\r' || c = '\n'))

/-- `scheme_chars`: ASCII letters, digits, and `+-.`. -/
def isSchemeChar (c : Char) : Bool :=
  c.isAlpha || c.isDigit || c = '+' || c = '-' || c = '.'

/-- The candidate scheme `url[:i]` is accepted when it is nonempty, its
first character is an ASCII letter, and all its characters are scheme
characters. -/
def schemeValid : List Char → Bool
  | [] => false
  | c :: rest => c.isAlpha && (c :: rest).all isSchemeChar

/-- Split `scheme:`; on rejection the URL is returned whole with an empty
scheme.  The accepted scheme is lowercased (`str.lower()`, which on the
validated ASCII characters lowers only `A`–`Z`). -/
def splitScheme (url : List Char) : List Char × List Char :=
  match url.dropWhile (· != ':') with
  | [] => ([], url)
  | _ :: rest =>
    if schemeValid (url.takeWhile (· != ':')) then
      ((url.takeWhile (· != ':')).map Char.toLower, rest)
    else ([], url)

/-- `_splitnetloc(url, 2)` without the leading `//`: the netloc runs to
the next `/`, `?` or `#`. -/
def netlocDelim (c : Char) : Bool := c = '/' || c = '?' || c = '#'

/-- Python `url.split(sep, 1)` as a pair (the whole string and `[]` when
`sep` does not occur). -/
def splitOnFirst (sep : Char) (l : List Char) : List Char × List Char :=
  (l.takeWhile (· != sep), (l.dropWhile (· != sep)).drop 1)

/-- The five components returned by `urlsplit`. -/
structure SplitResult where
  scheme : List Char
  netloc : List Char
  path : List Char
  query : List Char
  fragment : List Char
deriving Repr, DecidableEq

/-- `urllib.parse.urlsplit` (with `allow_fragments=True`); `none` models
the `ValueError("Invalid IPv6 URL")` raise. -/
def urlsplit (url : List Char) : Option SplitResult :=
  let u0 := sanitizeUrl url
  let sp := splitScheme u0
  let nl :=
    if sp.2.take 2 = ['/', '/'] then
      ((sp.2.drop 2).takeWhile (fun c => !netlocDelim c),
       (sp.2.drop 2).dropWhile (fun c => !netlocDelim c))
    else ([], sp.2)
  if (nl.1.contains '[' && !nl.1.contains ']') ||
      (nl.1.contains ']' && !nl.1.contains '[') then none
  else
    let fr := if nl.2.contains '#' then splitOnFirst '#' nl.2 else (nl.2, [])
    let pq := if fr.1.contains '?' then splitOnFirst '?' fr.1 else (fr.1, [])
    some ⟨sp.1, nl.1, pq.1, pq.2, fr.2⟩

/-- `_splitparams`, called by `urlparse` only when `;` occurs in the
path: with a `/` in the path, the split is at the first `;` at or after
the last `/` (no split if that segment has no `;`); otherwise at the
first `;`. -/
def splitParams (p : List Char) : List Char × List Char :=
  if p.contains '/' then
    if ((p.reverse.takeWhile (· != '/')).reverse).contains ';' then
      ((p.reverse.dropWhile (· != '/')).reverse ++
        ((p.reverse.takeWhile (· != '/')).reverse).takeWhile (· != ';'),
       (((p.reverse.takeWhile (· != '/')).reverse).dropWhile (· != ';')).drop 1)
    else (p, [])
  else splitOnFirst ';' p

/-- The six components returned by `urlparse`. -/
structure ParseResult where
  scheme : List Char
  netloc : List Char
  path : List Char
  params : List Char
  query : List Char
  fragment : List Char
deriving Repr, DecidableEq

/-- `urllib.parse.urlparse`. -/
def urlparse (url : List Char) : Option ParseResult :=
  (urlsplit url).map fun r =>
    if r.path.contains ';' then
      ⟨r.scheme, r.netloc, (splitParams r.path).1, (splitParams r.path).2,
        r.query, r.fragment⟩
    else ⟨r.scheme, r.netloc, r.path, [], r.query, r.fragment⟩

/-- `urllib.parse.urlunsplit`. -/
def urlunsplit (r : SplitResult) : List Char :=
  let url1 :=
    if r.netloc ≠ [] ∨ r.path.take 2 = ['/', '/'] then
      '/' :: '/' :: (r.netloc ++
        (if r.path ≠ [] ∧ r.path.take 1 ≠ ['/'] then '/' :: r.path else r.path))
    else r.path
  let url2 := if r.scheme ≠ [] then r.scheme ++ ':' :: url1 else url1
  let url3 := if r.query ≠ [] then url2 ++ '?' :: r.query else url2
  if r.fragment ≠ [] then url3 ++ '#' :: r.fragment else url3

/-- Reattach `;params` to the path (`urlunparse`). -/
def joinParams (path params : List Char) : List Char :=
  if params ≠ [] then path ++ ';' :: params else path

/-- `urllib.parse.urlunparse`. -/
def urlunparse (r : ParseResult) : List Char :=
  urlunsplit ⟨r.scheme, r.netloc, joinParams r.path r.params, r.query, r.fragment⟩

/-! ## `fuzzify_url` (lines 29–39)

```python
def fuzzify_url(url: str, keyword: str) -> str:
    if keyword in url:
        return url
    parsed_url = urlparse(url)
    params = parse_qsl(parsed_url.query)
    fuzzed_params = [(k, keyword) for k, _ in params]
    fuzzed_query = urlencode(fuzzed_params)
    return urlunparse(
        [parsed_url.scheme, parsed_url.netloc, parsed_url.path,
         parsed_url.params, fuzzed_query, parsed_url.fragment])
```

`none` models an escaping `ValueError` from `urlparse`. -/

def fuzzify_url (url keyword : List Char) : Option (List Char) :=
  if pyIn keyword url then some url
  else
    match urlparse url with
    | none => none
    | some r =>
      some (urlunparse ⟨r.scheme, r.netloc, r.path, r.params,
        urlencode ((parse_qsl r.query false).map fun kv => (kv.1, keyword)),
        r.fragment⟩)

/-! ## `load_urls` (lines 41–43)

```python
def load_urls() -> List[str]:
    urls = [fuzzify_url(line.strip(), "FUZZ") for line in sys.stdin]
    return urls
```

Note the hardcoded `"FUZZ"`: the configured `args.keyword` is NOT passed
here.  Standard input is modelled as the list of lines its iteration
yields. -/

def load_urls (stdin_lines : List (List Char)) : Option (List (List Char)) :=
  stdin_lines.mapM (fun line => fuzzify_url (pyStrip line) (S "FUZZ"))

/-! ## `str.replace` (line 56: `filled_url = url.replace(keyword, payload)`)

Python's `str.replace` replaces every non-overlapping occurrence, left to
right; with an empty pattern it inserts the replacement before every
character and at the end. -/

def pyReplaceF (old new : List Char) : Nat → List Char → List Char
  | _, [] => []
  | 0, s => s
  | fuel + 1, c :: s =>
    if old.isPrefixOf (c :: s) then
      new ++ pyReplaceF old new fuel ((c :: s).drop old.length)
    else c :: pyReplaceF old new fuel s

/-- Python `s.replace(old, new)`. -/
def pyReplace (s old new : List Char) : List Char :=
  if old = [] then new ++ s.flatMap (fun c => c :: new)
  else pyReplaceF old new s.length s

/-- Greedy left-to-right split of `s` on the separator sequence `sep`
(the pieces between consecutive non-overlapping occurrences). -/
def splitOnSeqF (sep : List Char) : Nat → List Char → List (List Char)
  | _, [] => [[]]
  | 0, s => [s]
  | fuel + 1, c :: s =>
    if sep.isPrefixOf (c :: s) then
      [] :: splitOnSeqF sep fuel ((c :: s).drop sep.length)
    else consHead c (splitOnSeqF sep fuel s)

/-- Split `s` at every occurrence of `sep`. -/
def splitOnSeq (s sep : List Char) : List (List Char) :=
  splitOnSeqF sep s.length s

/-- Replacement of every occurrence, specified independently of
`pyReplace`: split on the pattern and re-join with the replacement. -/
def replaceAllSpec (s old new : List Char) : List Char :=
  List.intercalate new (splitOnSeq s old)

/-! ### Character and list utilities for the reparse lemmas -/

theorem char_eq_of_toNat_eq {a b : Char} (h : a.toNat = b.toNat) : a = b := by
  rw [← Char.ofNat_toNat a, ← Char.ofNat_toNat b, h]

theorem char_ne_of_toNat_ne {a b : Char} (h : a.toNat ≠ b.toNat) : a ≠ b := by
  intro he
  exact h (congrArg Char.toNat he)

theorem toLower_toNat (c : Char) :
    (Char.toLower c).toNat =
      if c.toNat ≥ 65 ∧ c.toNat ≤ 90 then c.toNat + 32 else c.toNat := by
  simp only [Char.toLower]
  by_cases h : c.toNat ≥ 65 ∧ c.toNat ≤ 90
  · rw [if_pos h, if_pos h, toNat_ofNat_lt (by omega)]
  · rw [if_neg h, if_neg h]

theorem toLower_toLower (c : Char) : Char.toLower (Char.toLower c) = Char.toLower c := by
  by_cases h : c.toNat ≥ 65 ∧ c.toNat ≤ 90
  · have h1 : (Char.toLower c).toNat = c.toNat + 32 := by rw [toLower_toNat, if_pos h]
    apply char_eq_of_toNat_eq
    rw [toLower_toNat, h1, if_neg (by omega)]
  · have h1 : (Char.toLower c).toNat = c.toNat := by rw [toLower_toNat, if_neg h]
    apply char_eq_of_toNat_eq
    rw [toLower_toNat, h1, if_neg h]

theorem map_toLower_idem (l : List Char) :
    (l.map Char.toLower).map Char.toLower = l.map Char.toLower := by
  rw [List.map_map]
  apply List.map_congr_left
  intro c _
  exact toLower_toLower c

theorem isAlpha_iff_toNat (c : Char) :
    c.isAlpha = true ↔ (65 ≤ c.toNat ∧ c.toNat ≤ 90) ∨ (97 ≤ c.toNat ∧ c.toNat ≤ 122) := by
  simp only [Char.isAlpha, Char.isUpper, Char.isLower, Bool.or_eq_true, Bool.and_eq_true,
    decide_eq_true_eq, ge_iff_le]
  exact Iff.rfl

theorem isDigit_iff_toNat (c : Char) :
    c.isDigit = true ↔ 48 ≤ c.toNat ∧ c.toNat ≤ 57 := by
  simp only [Char.isDigit, Bool.and_eq_true, decide_eq_true_eq, ge_iff_le]
  exact Iff.rfl

theorem isSchemeChar_iff (c : Char) :
    isSchemeChar c = true ↔
      (65 ≤ c.toNat ∧ c.toNat ≤ 90) ∨ (97 ≤ c.toNat ∧ c.toNat ≤ 122) ∨
      (48 ≤ c.toNat ∧ c.toNat ≤ 57) ∨ c.toNat = 43 ∨ c.toNat = 45 ∨ c.toNat = 46 := by
  have h43 : (c = '+') ↔ c.toNat = 43 :=
    ⟨fun h => by rw [h]; rfl, fun h => char_eq_of_toNat_eq h⟩
  have h45 : (c = '-') ↔ c.toNat = 45 :=
    ⟨fun h => by rw [h]; rfl, fun h => char_eq_of_toNat_eq h⟩
  have h46 : (c = '.') ↔ c.toNat = 46 :=
    ⟨fun h => by rw [h]; rfl, fun h => char_eq_of_toNat_eq h⟩
  simp only [isSchemeChar, Bool.or_eq_true, isAlpha_iff_toNat, isDigit_iff_toNat,
    decide_eq_true_eq, h43, h45, h46]
  tauto

theorem toLower_isSchemeChar {c : Char} (h : isSchemeChar c = true) :
    isSchemeChar (Char.toLower c) = true := by
  rw [isSchemeChar_iff] at h ⊢
  rw [toLower_toNat]
  split <;> omega

theorem toLower_isAlpha {c : Char} (h : c.isAlpha = true) :
    (Char.toLower c).isAlpha = true := by
  rw [isAlpha_iff_toNat] at h ⊢
  rw [toLower_toNat]
  split <;> omega

theorem isSchemeChar_ne_colon {c : Char} (h : isSchemeChar c = true) : c ≠ ':' := by
  apply char_ne_of_toNat_ne
  rw [isSchemeChar_iff] at h
  intro he
  rw [show (':' : Char).toNat = 58 from rfl] at he
  omega

theorem takeWhile_eq_self {α : Type} {p : α → Bool} :
    ∀ {l : List α}, (∀ a ∈ l, p a = true) → l.takeWhile p = l := by
  intro l
  induction l with
  | nil => intro _; rfl
  | cons a t ih =>
    intro h
    rw [List.takeWhile_cons, if_pos (h a (List.mem_cons_self a t)),
      ih (fun x hx => h x (List.mem_cons_of_mem a hx))]

theorem dropWhile_eq_nil {α : Type} {p : α → Bool} :
    ∀ {l : List α}, (∀ a ∈ l, p a = true) → l.dropWhile p = [] := by
  intro l
  induction l with
  | nil => intro _; rfl
  | cons a t ih =>
    intro h
    rw [List.dropWhile_cons, if_pos (h a (List.mem_cons_self a t))]
    exact ih (fun x hx => h x (List.mem_cons_of_mem a hx))

/-! ### `splitScheme` lemmas -/

theorem schemeValid_colon_free {l : List Char} (h : schemeValid l = true) :
    ∀ c ∈ l, (c != ':') = true := by
  intro c hc
  cases l with
  | nil => cases hc
  | cons a t =>
    simp only [schemeValid, Bool.and_eq_true, List.all_eq_true] at h
    rw [bne_iff_ne]
    exact isSchemeChar_ne_colon (h.2 c hc)

theorem splitScheme_valid (s T : List Char) (hv : schemeValid s = true) :
    splitScheme (s ++ ':' :: T) = (s.map Char.toLower, T) := by
  have hfree := schemeValid_colon_free hv
  have htake : (s ++ ':' :: T).takeWhile (· != ':') = s := by
    rw [List.takeWhile_append_of_pos hfree, List.takeWhile_cons]
    simp
  have hdrop : (s ++ ':' :: T).dropWhile (· != ':') = ':' :: T := by
    rw [List.dropWhile_append_of_pos hfree, List.dropWhile_cons]
    simp
  unfold splitScheme
  rw [htake, hdrop]
  simp only [if_pos hv]

theorem splitScheme_none (l : List Char)
    (h : l.dropWhile (· != ':') = [] ∨ schemeValid (l.takeWhile (· != ':')) = false) :
    splitScheme l = ([], l) := by
  unfold splitScheme
  cases hd : l.dropWhile (· != ':') with
  | nil => rfl
  | cons a rest =>
    rcases h with h | h
    · rw [hd] at h
      cases h
    · dsimp only
      rw [if_neg (by rw [h]; exact Bool.false_ne_true)]

theorem splitScheme_fst_nil_elim {p : List Char} (h : splitScheme p = ([], p))
    (hline : p.dropWhile (· != ':') ≠ []) :
    schemeValid (p.takeWhile (· != ':')) = false := by
  cases hv : schemeValid (p.takeWhile (· != ':')) with
  | false => rfl
  | true =>
    exfalso
    unfold splitScheme at h
    cases hd : p.dropWhile (· != ':') with
    | nil => exact hline hd
    | cons a rest =>
      rw [hd] at h
      dsimp only at h
      rw [if_pos hv] at h
      have h1 : (p.takeWhile (· != ':')).map Char.toLower = [] := congrArg Prod.fst h
      have h2 : p.takeWhile (· != ':') = [] := by simpa using h1
      rw [h2] at hv
      cases hv

theorem schemeValid_false_of_bad {l : List Char} {c : Char} (hc : c ∈ l)
    (hbad : isSchemeChar c = false) : schemeValid l = false := by
  cases l with
  | nil => rfl
  | cons a t =>
    cases hv : schemeValid (a :: t) with
    | false => rfl
    | true =>
      exfalso
      simp only [schemeValid, Bool.and_eq_true, List.all_eq_true] at hv
      rw [hv.2 c hc] at hbad
      cases hbad

/-! ### Sanitization invariance -/

theorem cleanChar_iff (c : Char) :
    (!(c = '\t' || c = '\r' || c = '\n')) = true ↔
      c.toNat ≠ 9 ∧ c.toNat ≠ 13 ∧ c.toNat ≠ 10 := by
  have h9 : (c = '\t') ↔ c.toNat = 9 :=
    ⟨fun h => by rw [h]; rfl, fun h => char_eq_of_toNat_eq (by rw [h]; rfl)⟩
  have h13 : (c = '\r') ↔ c.toNat = 13 :=
    ⟨fun h => by rw [h]; rfl, fun h => char_eq_of_toNat_eq (by rw [h]; rfl)⟩
  have h10 : (c = '\n') ↔ c.toNat = 10 :=
    ⟨fun h => by rw [h]; rfl, fun h => char_eq_of_toNat_eq (by rw [h]; rfl)⟩
  simp only [Bool.not_eq_true', Bool.or_eq_false_iff, decide_eq_false_iff_not, h9, h13, h10]
  tauto

/-- `sanitizeUrl` is the identity on a string with no tab, CR or LF whose
first character (if any) is above the C0-control/space range. -/
theorem sanitizeUrl_clean (l : List Char)
    (hclean : ∀ c ∈ l, c.toNat ≠ 9 ∧ c.toNat ≠ 13 ∧ c.toNat ≠ 10)
    (hhead : ∀ c ∈ l.take 1, 0x20 < c.toNat) :
    sanitizeUrl l = l := by
  unfold sanitizeUrl
  have hdrop : l.dropWhile (fun c => c.toNat ≤ 0x20) = l := by
    cases l with
    | nil => rfl
    | cons a t =>
      rw [List.dropWhile_cons, if_neg]
      simp only [decide_eq_true_eq, not_le]
      exact hhead a (by simp)
  rw [hdrop]
  apply List.filter_eq_self.mpr
  intro c hc
  exact (cleanChar_iff c).mpr (hclean c hc)

theorem take1_append {α : Type} {A : List α} (B : List α) (h : A ≠ []) :
    (A ++ B).take 1 = A.take 1 := by
  cases A with
  | nil => exact absurd rfl h
  | cons a t => rfl

/-- `takeWhile`/`dropWhile` on a list whose head (if any) fails the
predicate. -/
theorem takeWhile_nil_of_head {α : Type} (pr : α → Bool) (l : List α)
    (h : ∀ c ∈ l.take 1, pr c = false) :
    l.takeWhile pr = [] ∧ l.dropWhile pr = l := by
  cases l with
  | nil => exact ⟨rfl, rfl⟩
  | cons a t =>
    have ha : pr a = false := h a (by simp)
    rw [List.takeWhile_cons, List.dropWhile_cons, if_neg (by rw [ha]; simp),
      if_neg (by rw [ha]; simp)]
    exact ⟨rfl, rfl⟩

theorem takeWhile_append_stops {α : Type} {pr : α → Bool} {A : List α} (B : List α)
    (h : A.dropWhile pr ≠ []) : (A ++ B).takeWhile pr = A.takeWhile pr := by
  rw [List.takeWhile_append, if_neg]
  intro hlen
  have hsum : (A.takeWhile pr).length + (A.dropWhile pr).length = A.length := by
    rw [← List.length_append, List.takeWhile_append_dropWhile]
  have : (A.dropWhile pr).length ≠ 0 := by
    intro hz
    exact h (List.length_eq_zero.mp hz)
  omega

theorem dropWhile_take_all {α : Type} {pr : α → Bool} {A : List α}
    (h : A.dropWhile pr = []) : A.takeWhile pr = A := by
  have := List.takeWhile_append_dropWhile (p := pr) (l := A)
  rw [h, List.append_nil] at this
  exact this

/-! ### The reparse round trip -/

theorem urlunsplit_normal (r : SplitResult)
    (hps : r.netloc ≠ [] → r.path = [] ∨ r.path.take 1 = ['/']) :
    urlunsplit r =
      (if r.scheme ≠ [] then r.scheme ++ [':'] else []) ++
      (if r.netloc ≠ [] ∨ r.path.take 2 = ['/', '/'] then '/' :: '/' :: r.netloc else []) ++
      r.path ++
      (if r.query ≠ [] then '?' :: r.query else []) ++
      (if r.fragment ≠ [] then '#' :: r.fragment else []) := by
  have hslash : (r.netloc ≠ [] ∨ r.path.take 2 = ['/', '/']) →
      ¬(r.path ≠ [] ∧ r.path.take 1 ≠ ['/']) := by
    intro hnet hcontra
    rcases hnet with hn | hp
    · rcases hps hn with h | h
      · exact hcontra.1 h
      · exact hcontra.2 h
    · apply hcontra.2
      cases hpath : r.path with
      | nil => rw [hpath] at hp; cases hp
      | cons a t =>
        rw [hpath] at hp
        cases t with
        | nil => cases hp
        | cons b t2 =>
          simp only [List.take_succ_cons, List.take_zero] at hp
          injection hp with h1 h2
          simp only [List.take_succ_cons, List.take_zero]
          rw [h1]
  simp only [urlunsplit]
  by_cases hnet : r.netloc ≠ [] ∨ r.path.take 2 = ['/', '/']
  · rw [if_pos hnet, if_neg (hslash hnet)]
    by_cases hs : r.scheme ≠ [] <;> by_cases hq : r.query ≠ [] <;>
      by_cases hf : r.fragment ≠ [] <;>
      simp [hs, hq, hf, hnet]
  · rw [if_neg hnet]
    by_cases hs : r.scheme ≠ [] <;> by_cases hq : r.query ≠ [] <;>
      by_cases hf : r.fragment ≠ [] <;>
      simp [hs, hq, hf, hnet]

theorem contains_iff_mem {l : List Char} {c : Char} : l.contains c = true ↔ c ∈ l := by
  simp [List.contains]

theorem schemeValid_all {l : List Char} (h : schemeValid l = true) :
    ∀ c ∈ l, isSchemeChar c = true := by
  cases l with
  | nil => intro c hc; cases hc
  | cons a t =>
    simp only [schemeValid, Bool.and_eq_true, List.all_eq_true] at h
    exact h.2

theorem mem_ite_list {α : Type} {c : α} {b : Prop} [Decidable b] {L : List α}
    (h : c ∈ (if b then L else [])) : b ∧ c ∈ L := by
  split at h
  · exact ⟨by assumption, h⟩
  · cases h

/-- Shape of the optional `?query#fragment` suffix. -/
theorem optqf_shape (q f : List Char) :
    ((if q ≠ [] then '?' :: q else []) ++ (if f ≠ [] then '#' :: f else []) = []) ∨
    (∃ r, (if q ≠ [] then '?' :: q else []) ++ (if f ≠ [] then '#' :: f else [])
        = '?' :: r) ∨
    (∃ r, (if q ≠ [] then '?' :: q else []) ++ (if f ≠ [] then '#' :: f else [])
        = '#' :: r) := by
  by_cases hq : q = []
  · by_cases hf : f = []
    · left
      simp [hq, hf]
    · right; right
      exact ⟨f, by simp [hq, hf]⟩
  · right; left
    exact ⟨q ++ (if f ≠ [] then '#' :: f else []), by simp [hq]⟩

/-- After `//`, the netloc scan stops at the start of the path, query or
fragment. -/
theorem netloc_stop (p q f : List Char) (hstart : p = [] ∨ p.take 1 = ['/']) :
    (p ++ (if q ≠ [] then '?' :: q else []) ++
      (if f ≠ [] then '#' :: f else [])).takeWhile (fun c => !netlocDelim c) = [] ∧
    (p ++ (if q ≠ [] then '?' :: q else []) ++
      (if f ≠ [] then '#' :: f else [])).dropWhile (fun c => !netlocDelim c) =
      p ++ (if q ≠ [] then '?' :: q else []) ++ (if f ≠ [] then '#' :: f else []) := by
  apply takeWhile_nil_of_head
  intro c hc
  rcases hstart with hp | hp
  · subst hp
    rw [List.nil_append] at hc
    rcases optqf_shape q f with h0 | ⟨r, hr⟩ | ⟨r, hr⟩
    · rw [h0] at hc
      cases hc
    · rw [hr] at hc
      simp only [List.take_succ_cons, List.take_zero, List.mem_singleton] at hc
      subst hc
      rfl
    · rw [hr] at hc
      simp only [List.take_succ_cons, List.take_zero, List.mem_singleton] at hc
      subst hc
      rfl
  · cases hpath : p with
    | nil =>
      rw [hpath] at hp
      cases hp
    | cons a t =>
      rw [hpath] at hp
      simp only [List.take_succ_cons, List.take_zero] at hp
      injection hp with h1 _
      subst h1
      rw [hpath] at hc
      simp only [List.cons_append, List.take_succ_cons, List.take_zero,
        List.mem_singleton] at hc
      subst hc
      rfl

/-- Without a netloc, the reassembled remainder never starts with `//`. -/
theorem take2_ne_slashes (p q f : List Char) (hp2 : p.take 2 ≠ ['/', '/']) :
    (p ++ (if q ≠ [] then '?' :: q else []) ++
      (if f ≠ [] then '#' :: f else [])).take 2 ≠ ['/', '/'] := by
  intro hcontra
  cases hpath : p with
  | nil =>
    rw [hpath, List.nil_append] at hcontra
    rcases optqf_shape q f with h0 | ⟨r, hr⟩ | ⟨r, hr⟩
    · rw [h0] at hcontra
      cases hcontra
    · rw [hr] at hcontra
      simp only [List.take_succ_cons] at hcontra
      injection hcontra with h1 _
      exact absurd h1 (by decide)
    · rw [hr] at hcontra
      simp only [List.take_succ_cons] at hcontra
      injection hcontra with h1 _
      exact absurd h1 (by decide)
  | cons a t =>
    cases htail : t with
    | nil =>
      rw [hpath, htail] at hcontra
      simp only [List.cons_append, List.nil_append, List.take_succ_cons] at hcontra
      injection hcontra with h1 h2
      rcases optqf_shape q f with h0 | ⟨r, hr⟩ | ⟨r, hr⟩
      · rw [h0] at h2
        cases h2
      · rw [hr] at h2
        simp only [List.take_succ_cons, List.take_zero] at h2
        injection h2 with h3 _
        exact absurd h3 (by decide)
      · rw [hr] at h2
        simp only [List.take_succ_cons, List.take_zero] at h2
        injection h2 with h3 _
        exact absurd h3 (by decide)
    | cons b t2 =>
      rw [hpath, htail] at hcontra
      rw [hpath, htail] at hp2
      simp only [List.cons_append, List.take_succ_cons, List.take_zero] at hcontra hp2
      exact hp2 hcontra

theorem splitOnFirst_at (sep : Char) (A B : List Char) (hA : ∀ c ∈ A, c ≠ sep) :
    splitOnFirst sep (A ++ sep :: B) = (A, B) := by
  have hAB : ∀ c ∈ A, (c != sep) = true := fun c hc => by
    simpa [bne_iff_ne] using hA c hc
  unfold splitOnFirst
  rw [List.takeWhile_append_of_pos hAB, List.dropWhile_append_of_pos hAB,
    List.takeWhile_cons, List.dropWhile_cons]
  simp

theorem contains_false_of (l : List Char) (c0 : Char) (h : ∀ c ∈ l, c ≠ c0) :
    l.contains c0 = false := by
  cases hc : l.contains c0 with
  | false => rfl
  | true => exact absurd (contains_iff_mem.mp hc) (fun hm => h c0 hm rfl)

theorem pq_no_hash (p q : List Char) (hpc : ∀ c ∈ p, c ≠ '#') (hqc : ∀ c ∈ q, c ≠ '#') :
    ∀ c ∈ p ++ (if q ≠ [] then '?' :: q else []), c ≠ '#' := by
  intro c hc
  rcases List.mem_append.mp hc with h | h
  · exact hpc c h
  · obtain ⟨_, h2⟩ := mem_ite_list h
    rcases List.mem_cons.mp h2 with rfl | h3
    · decide
    · exact hqc c h3

theorem netloc_scan (n Z : List Char) (hn : ∀ c ∈ n, netlocDelim c = false)
    (hZtake : Z.takeWhile (fun c => !netlocDelim c) = [])
    (hZdrop : Z.dropWhile (fun c => !netlocDelim c) = Z) :
    (n ++ Z).takeWhile (fun c => !netlocDelim c) = n ∧
    (n ++ Z).dropWhile (fun c => !netlocDelim c) = Z := by
  have hn2 : ∀ c ∈ n, (!netlocDelim c) = true := fun c hc => by rw [hn c hc]; rfl
  constructor
  · rw [List.takeWhile_append_of_pos hn2, hZtake, List.append_nil]
  · rw [List.dropWhile_append_of_pos hn2, hZdrop]

/-- With no scheme in the components, the reassembled URL parses to no
scheme either. -/
theorem splitScheme_reparse_noscheme (n p q f : List Char)
    (hnos : n = [] → splitScheme p = ([], p)) :
    splitScheme ((if n ≠ [] ∨ p.take 2 = ['/', '/'] then '/' :: '/' :: n else []) ++
      p ++ (if q ≠ [] then '?' :: q else []) ++ (if f ≠ [] then '#' :: f else [])) =
    ([], (if n ≠ [] ∨ p.take 2 = ['/', '/'] then '/' :: '/' :: n else []) ++
      p ++ (if q ≠ [] then '?' :: q else []) ++ (if f ≠ [] then '#' :: f else [])) := by
  by_cases hnet : n ≠ [] ∨ p.take 2 = ['/', '/']
  · apply splitScheme_none
    right
    apply schemeValid_false_of_bad (c := '/')
    · rw [if_pos hnet]
      have hshape : ('/' :: '/' :: n) ++ p ++ (if q ≠ [] then '?' :: q else []) ++
          (if f ≠ [] then '#' :: f else []) =
          '/' :: ('/' :: n ++ p ++ (if q ≠ [] then '?' :: q else []) ++
            (if f ≠ [] then '#' :: f else [])) := by
        simp
      rw [hshape, List.takeWhile_cons, if_pos (by decide)]
      exact List.mem_cons_self _ _
    · decide
  · have hn0 : n = [] := by
      have h1 := not_or.mp hnet
      simpa using h1.1
    have hps0 := hnos hn0
    rw [if_neg hnet, List.nil_append]
    by_cases hcol : p.dropWhile (· != ':') = []
    · have htp : p.takeWhile (· != ':') = p := dropWhile_take_all hcol
      have hpass : ∀ c ∈ p, (c != ':') = true := by
        intro c hc
        rw [← htp] at hc
        simpa using List.mem_takeWhile_imp hc
      rcases optqf_shape q f with h0 | ⟨r, hr⟩ | ⟨r, hr⟩
      · rw [List.append_assoc, h0, List.append_nil]
        exact hps0
      · apply splitScheme_none
        right
        apply schemeValid_false_of_bad (c := '?')
        · rw [List.append_assoc, hr, List.takeWhile_append_of_pos hpass,
            List.takeWhile_cons, if_pos (by decide)]
          exact List.mem_append.mpr (Or.inr (List.mem_cons_self _ _))
        · decide
      · apply splitScheme_none
        right
        apply schemeValid_false_of_bad (c := '#')
        · rw [List.append_assoc, hr, List.takeWhile_append_of_pos hpass,
            List.takeWhile_cons, if_pos (by decide)]
          exact List.mem_append.mpr (Or.inr (List.mem_cons_self _ _))
        · decide
    · have hsv := splitScheme_fst_nil_elim hps0 hcol
      apply splitScheme_none
      right
      rw [List.append_assoc, takeWhile_append_stops _ hcol]
      exact hsv

theorem frag_stage (p q f : List Char)
    (hpc : ∀ c ∈ p, c ≠ '?' ∧ c ≠ '#') (hqc : ∀ c ∈ q, c ≠ '#') :
    (if (p ++ (if q ≠ [] then '?' :: q else []) ++
          (if f ≠ [] then '#' :: f else [])).contains '#' = true
      then splitOnFirst '#' (p ++ (if q ≠ [] then '?' :: q else []) ++
          (if f ≠ [] then '#' :: f else []))
      else (p ++ (if q ≠ [] then '?' :: q else []) ++
          (if f ≠ [] then '#' :: f else []), [])) =
    (p ++ (if q ≠ [] then '?' :: q else []), f) := by
  have hpch : ∀ c ∈ p, c ≠ '#' := fun c hc => (hpc c hc).2
  have hnh := pq_no_hash p q hpch hqc
  by_cases hf : f = []
  · have hFF : (if f ≠ [] then '#' :: f else []) = [] := by simp [hf]
    rw [hFF, List.append_nil]
    rw [if_neg ?hc1]
    case hc1 =>
      rw [contains_false_of _ _ hnh]
      simp
    rw [hf]
  · have hFF : (if f ≠ [] then '#' :: f else []) = '#' :: f := by simp [hf]
    rw [hFF]
    rw [if_pos ?hc2]
    case hc2 =>
      rw [contains_iff_mem]
      exact List.mem_append.mpr (Or.inr (List.mem_cons_self _ _))
    exact splitOnFirst_at '#' _ f hnh

theorem query_stage (p q : List Char)
    (hpc : ∀ c ∈ p, c ≠ '?' ∧ c ≠ '#') :
    (if (p ++ (if q ≠ [] then '?' :: q else [])).contains '?' = true
      then splitOnFirst '?' (p ++ (if q ≠ [] then '?' :: q else []))
      else (p ++ (if q ≠ [] then '?' :: q else []), [])) = (p, q) := by
  by_cases hq : q = []
  · have hQQ : (if q ≠ [] then '?' :: q else []) = [] := by simp [hq]
    rw [hQQ, List.append_nil]
    rw [if_neg ?hc1]
    case hc1 =>
      rw [contains_false_of _ _ (fun c hc => (hpc c hc).1)]
      simp
    rw [hq]
  · have hQQ : (if q ≠ [] then '?' :: q else []) = '?' :: q := by simp [hq]
    rw [hQQ]
    rw [if_pos ?hc2]
    case hc2 =>
      rw [contains_iff_mem]
      exact List.mem_append.mpr (Or.inr (List.mem_cons_self _ _))
    exact splitOnFirst_at '?' p q (fun c hc => (hpc c hc).1)

/-- Re-parsing an assembled URL recovers the components exactly, under
the side conditions that hold of every `urlsplit` output (and of every
`urlencode` output for the query). -/
theorem urlsplit_urlunsplit_roundtrip (s n p q f : List Char)
    (hs : s = [] ∨ (schemeValid s = true ∧ s.map Char.toLower = s))
    (hnos : s = [] → n = [] → splitScheme p = ([], p))
    (hn : ∀ c ∈ n, netlocDelim c = false)
    (hbr : ('[' ∈ n) ↔ (']' ∈ n))
    (hps : n ≠ [] → p = [] ∨ p.take 1 = ['/'])
    (hpc : ∀ c ∈ p, c ≠ '?' ∧ c ≠ '#')
    (hqc : ∀ c ∈ q, c ≠ '#')
    (hclN : ∀ c ∈ n, c.toNat ≠ 9 ∧ c.toNat ≠ 13 ∧ c.toNat ≠ 10)
    (hclP : ∀ c ∈ p, c.toNat ≠ 9 ∧ c.toNat ≠ 13 ∧ c.toNat ≠ 10)
    (hclQ : ∀ c ∈ q, c.toNat ≠ 9 ∧ c.toNat ≠ 13 ∧ c.toNat ≠ 10)
    (hclF : ∀ c ∈ f, c.toNat ≠ 9 ∧ c.toNat ≠ 13 ∧ c.toNat ≠ 10)
    (hhead : s = [] → n = [] → ∀ c ∈ p.take 1, 0x20 < c.toNat) :
    urlsplit (urlunsplit ⟨s, n, p, q, f⟩) = some ⟨s, n, p, q, f⟩ := by
  have hclS : ∀ c ∈ s, isSchemeChar c = true := by
    rcases hs with h | ⟨hsv, _⟩
    · subst h
      intro c hc
      cases hc
    · exact schemeValid_all hsv
  rw [urlunsplit_normal ⟨s, n, p, q, f⟩ hps]
  dsimp only
  have hcleanC : ∀ c ∈ (if s ≠ [] then s ++ [':'] else []) ++
      (if n ≠ [] ∨ p.take 2 = ['/', '/'] then '/' :: '/' :: n else []) ++ p ++
      (if q ≠ [] then '?' :: q else []) ++ (if f ≠ [] then '#' :: f else []),
      c.toNat ≠ 9 ∧ c.toNat ≠ 13 ∧ c.toNat ≠ 10 := by
    intro c hc
    rcases List.mem_append.mp hc with hc1 | hcD
    · rcases List.mem_append.mp hc1 with hc2 | hcC
      · rcases List.mem_append.mp hc2 with hc3 | hcP
        · rcases List.mem_append.mp hc3 with hcA | hcB
          · obtain ⟨_, h2⟩ := mem_ite_list hcA
            rcases List.mem_append.mp h2 with h3 | h3
            · have := (isSchemeChar_iff c).mp (hclS c h3)
              omega
            · rcases List.mem_cons.mp h3 with rfl | h4
              · exact ⟨by decide, by decide, by decide⟩
              · cases h4
          · obtain ⟨_, h2⟩ := mem_ite_list hcB
            rcases List.mem_cons.mp h2 with rfl | h3
            · exact ⟨by decide, by decide, by decide⟩
            · rcases List.mem_cons.mp h3 with rfl | h4
              · exact ⟨by decide, by decide, by decide⟩
              · exact hclN c h4
        · exact hclP c hcP
      · obtain ⟨_, h2⟩ := mem_ite_list hcC
        rcases List.mem_cons.mp h2 with rfl | h3
        · exact ⟨by decide, by decide, by decide⟩
        · exact hclQ c h3
    · obtain ⟨_, h2⟩ := mem_ite_list hcD
      rcases List.mem_cons.mp h2 with rfl | h3
      · exact ⟨by decide, by decide, by decide⟩
      · exact hclF c h3
  have hheadC : ∀ c ∈ ((if s ≠ [] then s ++ [':'] else []) ++
      (if n ≠ [] ∨ p.take 2 = ['/', '/'] then '/' :: '/' :: n else []) ++ p ++
      (if q ≠ [] then '?' :: q else []) ++ (if f ≠ [] then '#' :: f else [])).take 1,
      0x20 < c.toNat := by
    rcases hs with hs0 | ⟨hsv, hsl⟩
    · subst hs0
      rw [show (if ([] : List Char) ≠ [] then [] ++ [':'] else []) = [] from by simp,
        List.nil_append]
      by_cases hnet : n ≠ [] ∨ p.take 2 = ['/', '/']
      · rw [if_pos hnet]
        intro c hc
        simp only [List.cons_append, List.take_succ_cons, List.take_zero,
          List.mem_singleton] at hc
        subst hc
        decide
      · rw [if_neg hnet, List.nil_append]
        have hn0 : n = [] := by
          have h1 := not_or.mp hnet
          simpa using h1.1
        intro c hc
        cases hp : p with
        | cons a t =>
          rw [hp] at hc
          simp only [List.cons_append, List.take_succ_cons, List.take_zero,
            List.mem_singleton] at hc
          subst hc
          exact hhead rfl hn0 c (by rw [hp]; simp)
        | nil =>
          rw [hp, List.nil_append] at hc
          rcases optqf_shape q f with h0 | ⟨r, hr⟩ | ⟨r, hr⟩
          · rw [h0] at hc
            cases hc
          · rw [hr] at hc
            simp only [List.take_succ_cons, List.take_zero, List.mem_singleton] at hc
            subst hc
            decide
          · rw [hr] at hc
            simp only [List.take_succ_cons, List.take_zero, List.mem_singleton] at hc
            subst hc
            decide
    · have hsne : s ≠ [] := by
        intro h0
        rw [h0] at hsv
        cases hsv
      rw [if_pos hsne]
      cases hsch : s with
      | nil => exact absurd hsch hsne
      | cons a t =>
        intro c hc
        simp only [List.cons_append, List.take_succ_cons, List.take_zero,
          List.mem_singleton] at hc
        rw [hc]
        have ha : a.isAlpha = true := by
          rw [hsch] at hsv
          simp only [schemeValid, Bool.and_eq_true] at hsv
          exact hsv.1
        rw [isAlpha_iff_toNat] at ha
        omega
  have hstart : (n ≠ [] ∨ p.take 2 = ['/', '/']) → (p = [] ∨ p.take 1 = ['/']) := by
    intro hnet
    rcases hnet with hn1 | hp2
    · exact hps hn1
    · cases p with
      | nil => exact Or.inl rfl
      | cons a t =>
        right
        cases t with
        | nil => simp at hp2
        | cons b t2 =>
          simp only [List.take_succ_cons, List.take_zero] at hp2 ⊢
          injection hp2 with h1 _
          rw [h1]
  simp only [urlsplit]
  rw [sanitizeUrl_clean _ hcleanC hheadC]
  have hschemeR : splitScheme ((if s ≠ [] then s ++ [':'] else []) ++
      (if n ≠ [] ∨ p.take 2 = ['/', '/'] then '/' :: '/' :: n else []) ++ p ++
      (if q ≠ [] then '?' :: q else []) ++ (if f ≠ [] then '#' :: f else [])) =
      (s, (if n ≠ [] ∨ p.take 2 = ['/', '/'] then '/' :: '/' :: n else []) ++ p ++
        (if q ≠ [] then '?' :: q else []) ++ (if f ≠ [] then '#' :: f else [])) := by
    rcases hs with hs0 | ⟨hsv, hsl⟩
    · subst hs0
      rw [show (if ([] : List Char) ≠ [] then [] ++ [':'] else []) = [] from by simp,
        List.nil_append]
      exact splitScheme_reparse_noscheme n p q f (hnos rfl)
    · have hsne : s ≠ [] := by
        intro h0
        rw [h0] at hsv
        cases hsv
      rw [show (if s ≠ [] then s ++ [':'] else []) = s ++ [':'] from by simp [hsne]]
      rw [show (s ++ [':']) ++
          (if n ≠ [] ∨ p.take 2 = ['/', '/'] then '/' :: '/' :: n else []) ++ p ++
          (if q ≠ [] then '?' :: q else []) ++ (if f ≠ [] then '#' :: f else []) =
          s ++ ':' :: ((if n ≠ [] ∨ p.take 2 = ['/', '/'] then '/' :: '/' :: n else []) ++
            p ++ (if q ≠ [] then '?' :: q else []) ++
            (if f ≠ [] then '#' :: f else [])) from by simp]
      rw [splitScheme_valid _ _ hsv, hsl]
  rw [hschemeR]
  by_cases hnet : n ≠ [] ∨ p.take 2 = ['/', '/']
  · rw [show (if n ≠ [] ∨ p.take 2 = ['/', '/'] then '/' :: '/' :: n else [])
        = '/' :: '/' :: n from by simp [hnet]]
    have hT2 : (('/' :: '/' :: n) ++ p ++ (if q ≠ [] then '?' :: q else []) ++
        (if f ≠ [] then '#' :: f else [])) =
        '/' :: '/' :: (n ++ (p ++ (if q ≠ [] then '?' :: q else []) ++
          (if f ≠ [] then '#' :: f else []))) := by
      simp
    rw [hT2]
    have hstop := netloc_stop p q f (hstart hnet)
    have hscan := netloc_scan n _ hn hstop.1 hstop.2
    rw [show ∀ L : List Char, List.take 2 ('/' :: '/' :: L) = ['/', '/'] from
      fun L => rfl]
    rw [if_pos rfl]
    rw [show ∀ L : List Char, List.drop 2 ('/' :: '/' :: L) = L from fun L => rfl]
    dsimp only
    rw [hscan.1, hscan.2]
    have hbrF : ((n.contains '[' && !n.contains ']') ||
        (n.contains ']' && !n.contains '[')) = false := by
      cases hc1 : n.contains '[' <;> cases hc2 : n.contains ']' <;> simp
      · rw [← contains_iff_mem, hc1, ← contains_iff_mem, hc2] at hbr
        exact absurd (hbr.mpr rfl) (by simp)
      · rw [← contains_iff_mem, hc1, ← contains_iff_mem, hc2] at hbr
        exact absurd (hbr.mp rfl) (by simp)
    rw [if_neg (by rw [hbrF]; simp)]
    rw [frag_stage p q f hpc hqc]
    dsimp only
    rw [query_stage p q hpc]
  · rw [show (if n ≠ [] ∨ p.take 2 = ['/', '/'] then '/' :: '/' :: n else [])
        = [] from by simp [hnet], List.nil_append]
    have hn0 : n = [] := by
      have h1 := not_or.mp hnet
      simpa using h1.1
    have hp2 : p.take 2 ≠ ['/', '/'] := by
      have h1 := not_or.mp hnet
      exact h1.2
    dsimp only
    rw [if_neg (take2_ne_slashes p q f hp2)]
    dsimp only
    rw [if_neg (by decide)]
    rw [frag_stage p q f hpc hqc]
    dsimp only
    rw [query_stage p q hpc]
    rw [hn0]

/-! ### Properties of the pieces produced by `urlsplit` -/

theorem dropWhile_append_ne {α : Type} {pr : α → Bool} {A : List α} (B : List α)
    (h : A.dropWhile pr ≠ []) : (A ++ B).dropWhile pr = A.dropWhile pr ++ B := by
  rw [List.dropWhile_append, if_neg]
  simpa using h

theorem splitScheme_cases (l : List Char) :
    splitScheme l = ([], l) ∨
    ∃ sch T, l = sch ++ ':' :: T ∧ schemeValid sch = true ∧
      splitScheme l = (sch.map Char.toLower, T) := by
  cases hd : l.dropWhile (· != ':') with
  | nil => exact Or.inl (splitScheme_none l (Or.inl hd))
  | cons a rest =>
    cases hv : schemeValid (l.takeWhile (· != ':')) with
    | false => exact Or.inl (splitScheme_none l (Or.inr hv))
    | true =>
      right
      have ha : a = ':' := by
        have := dropWhile_head_false _ l a rest hd
        simpa using this
      refine ⟨l.takeWhile (· != ':'), rest, ?_, hv, ?_⟩
      · conv_lhs => rw [← List.takeWhile_append_dropWhile (· != ':') l]
        rw [hd, ha]
      · unfold splitScheme
        rw [hd]
        dsimp only
        rw [if_pos hv]

theorem splitScheme_prefix_nil (A B : List Char)
    (h : splitScheme (A ++ B) = ([], A ++ B)) : splitScheme A = ([], A) := by
  cases hd : A.dropWhile (· != ':') with
  | nil => exact splitScheme_none A (Or.inl hd)
  | cons a rest =>
    apply splitScheme_none A
    right
    have hne : A.dropWhile (· != ':') ≠ [] := by rw [hd]; simp
    have htk : (A ++ B).takeWhile (· != ':') = A.takeWhile (· != ':') :=
      takeWhile_append_stops B hne
    have hdr : (A ++ B).dropWhile (· != ':') ≠ [] := by
      rw [dropWhile_append_ne B hne, hd]
      simp
    have hval := splitScheme_fst_nil_elim h hdr
    rw [htk] at hval
    exact hval

theorem schemeValid_toLower {l : List Char} (h : schemeValid l = true) :
    schemeValid (l.map Char.toLower) = true := by
  cases l with
  | nil => cases h
  | cons a t =>
    rw [List.map_cons]
    simp only [schemeValid, Bool.and_eq_true, List.all_eq_true] at h ⊢
    refine ⟨toLower_isAlpha h.1, ?_⟩
    intro c hc
    rw [← List.map_cons] at hc
    simp only [List.mem_map] at hc
    obtain ⟨d, hd, rfl⟩ := hc
    exact toLower_isSchemeChar (h.2 d hd)

theorem splitScheme_slash (p : List Char) (h : p = [] ∨ p.take 1 = ['/']) :
    splitScheme p = ([], p) := by
  rcases h with rfl | h1
  · rfl
  · cases p with
    | nil => simp at h1
    | cons a t =>
      simp only [List.take_succ_cons, List.take_zero] at h1
      injection h1 with ha _
      subst ha
      apply splitScheme_none
      cases hd : ('/' :: t).dropWhile (· != ':') with
      | nil => exact Or.inl rfl
      | cons b r =>
        right
        rw [List.takeWhile_cons, if_pos (by decide)]
        exact schemeValid_false_of_bad (List.mem_cons_self _ _) (by decide)

theorem sanitizeUrl_mem {u : List Char} : ∀ c ∈ sanitizeUrl u,
    c.toNat ≠ 9 ∧ c.toNat ≠ 13 ∧ c.toNat ≠ 10 := by
  intro c hc
  unfold sanitizeUrl at hc
  rw [List.mem_filter] at hc
  exact (cleanChar_iff c).mp hc.2

theorem sanitizeUrl_head (u : List Char) :
    ∀ c ∈ (sanitizeUrl u).take 1, 0x20 < c.toNat := by
  unfold sanitizeUrl
  cases hd : u.dropWhile (fun c => c.toNat ≤ 0x20) with
  | nil =>
    intro c hc
    simp at hc
  | cons a t =>
    have ha : 0x20 < a.toNat := by
      have := dropWhile_head_false _ u a t hd
      simp only [decide_eq_false_iff_not, Nat.not_le] at this
      exact this
    have hpf : (!(a = '\t' || a = '\r' || a = '\n')) = true :=
      (cleanChar_iff a).mpr (by omega)
    rw [List.filter_cons, if_pos hpf]
    intro c hc
    simp only [List.take_succ_cons, List.take_zero, List.mem_singleton] at hc
    subst hc
    exact ha

theorem optSplit_fst_free (sep : Char) (l : List Char) :
    ∀ c ∈ (if l.contains sep then splitOnFirst sep l else (l, [])).1, c ≠ sep := by
  by_cases hc : l.contains sep = true
  · rw [if_pos hc]
    intro c hm
    simpa using List.mem_takeWhile_imp hm
  · rw [if_neg hc]
    intro c hm he
    subst he
    exact hc (contains_iff_mem.mpr hm)

theorem optSplit_fst_pre (sep : Char) (l : List Char) :
    (if l.contains sep then splitOnFirst sep l else (l, [])).1 <+: l := by
  by_cases hc : l.contains sep = true
  · rw [if_pos hc]
    exact List.takeWhile_prefix _
  · rw [if_neg hc]

theorem optSplit_snd_mem (sep : Char) (l : List Char) :
    ∀ c ∈ (if l.contains sep then splitOnFirst sep l else (l, [])).2, c ∈ l := by
  by_cases hc : l.contains sep = true
  · rw [if_pos hc]
    intro c hm
    exact (List.dropWhile_sublist _).subset ((List.drop_sublist _ _).subset hm)
  · rw [if_neg hc]
    intro c hm
    simp at hm

theorem bracket_ok {n : List Char}
    (h : ¬ (((n.contains '[' && !n.contains ']') ||
      (n.contains ']' && !n.contains '[')) = true)) :
    ('[' ∈ n) ↔ (']' ∈ n) := by
  simp only [Bool.or_eq_true, Bool.and_eq_true, Bool.not_eq_true', not_or, not_and] at h
  constructor
  · intro hm
    cases hv : n.contains ']' with
    | true => exact contains_iff_mem.mp hv
    | false => exact absurd hv (by simpa using h.1 (contains_iff_mem.mpr hm))
  · intro hm
    cases hv : n.contains '[' with
    | true => exact contains_iff_mem.mp hv
    | false => exact absurd hv (by simpa using h.2 (contains_iff_mem.mpr hm))

theorem mem_intercalate {α : Type} (sep : List α) :
    ∀ (L : List (List α)) (c : α), c ∈ List.intercalate sep L →
      c ∈ sep ∨ ∃ x ∈ L, c ∈ x := by
  intro L
  induction L with
  | nil =>
    intro c hc
    simp [List.intercalate] at hc
  | cons x t ih =>
    intro c hc
    cases t with
    | nil =>
      rw [show List.intercalate sep [x] = x from by simp [List.intercalate]] at hc
      exact Or.inr ⟨x, by simp, hc⟩
    | cons y t2 =>
      rw [show List.intercalate sep (x :: y :: t2)
          = x ++ sep ++ List.intercalate sep (y :: t2) from by
        simp [List.intercalate, List.intersperse]] at hc
      rcases List.mem_append.mp hc with h1 | h2
      · rcases List.mem_append.mp h1 with h3 | h4
        · exact Or.inr ⟨x, by simp, h3⟩
        · exact Or.inl h4
      · rcases ih c h2 with h3 | ⟨z, hz, hcz⟩
        · exact Or.inl h3
        · exact Or.inr ⟨z, List.mem_cons_of_mem x hz, hcz⟩

theorem urlencode_mem (query : List (List Char × List Char)) :
    ∀ c ∈ urlencode query, isSafeByte c.toNat = true ∨ c.toNat = 43 ∨
      c.toNat = 37 ∨ c.toNat = 61 ∨ c.toNat = 38 := by
  intro c hc
  unfold urlencode at hc
  rcases mem_intercalate _ _ c hc with hs | ⟨x, hx, hcx⟩
  · have : c = '&' := by simpa using hs
    rw [this]
    right; right; right; right; rfl
  · simp only [List.mem_map] at hx
    obtain ⟨kv, hkv, rfl⟩ := hx
    rcases List.mem_append.mp hcx with h1 | h2
    · have := quote_plus_toNat _ c h1
      tauto
    · rcases List.mem_cons.mp h2 with rfl | h3
      · right; right; right; left; rfl
      · have := quote_plus_toNat _ c h3
        tauto

theorem isSafeByte_ge {b : Nat} (h : isSafeByte b = true) : 45 ≤ b := by
  unfold isSafeByte at h
  simp only [Bool.or_eq_true, Bool.and_eq_true, decide_eq_true_eq, beq_iff_eq] at h
  omega

theorem urlencode_no_delims (query : List (List Char × List Char)) :
    ∀ c ∈ urlencode query,
      c ≠ '#' ∧ c.toNat ≠ 9 ∧ c.toNat ≠ 13 ∧ c.toNat ≠ 10 := by
  intro c hc
  have h := urlencode_mem query c hc
  have hb : 37 ≤ c.toNat := by
    rcases h with h | h | h | h | h
    · have := isSafeByte_ge h
      omega
    all_goals omega
  refine ⟨?_, by omega, by omega, by omega⟩
  apply char_ne_of_toNat_ne
  intro he
  rw [show ('#').toNat = 35 from rfl] at he
  rcases h with h | h | h | h | h
  · have := isSafeByte_ge h
    omega
  all_goals omega

theorem dropWhile_mem_cons {α : Type} [DecidableEq α] (l : List α) (c0 : α)
    (h : c0 ∈ l) : ∃ t, l.dropWhile (· != c0) = c0 :: t := by
  cases hd : l.dropWhile (· != c0) with
  | nil =>
    exfalso
    have hall : l.takeWhile (· != c0) = l := dropWhile_take_all hd
    have hm : c0 ∈ l.takeWhile (· != c0) := by rw [hall]; exact h
    have := List.mem_takeWhile_imp hm
    simp at this
  | cons a t =>
    have ha : a = c0 := by
      have := dropWhile_head_false _ l a t hd
      simpa using this
    exact ⟨t, by rw [ha]⟩

theorem pre_take1 {A B : List Char} (h : A <+: B) (hne : A ≠ []) :
    B.take 1 = A.take 1 := by
  obtain ⟨t, rfl⟩ := h
  exact take1_append t hne

/-! ### `splitParams` / `joinParams` re-parse -/

/-- The path/params pair `urlparse` derives from the split path. -/
def pathParams (p : List Char) : List Char × List Char :=
  if p.contains ';' then splitParams p else (p, [])

theorem urlparse_pathParams (url : List Char) :
    urlparse url = (urlsplit url).map fun r =>
      ⟨r.scheme, r.netloc, (pathParams r.path).1, (pathParams r.path).2,
        r.query, r.fragment⟩ := by
  unfold urlparse
  cases urlsplit url with
  | none => rfl
  | some r =>
    dsimp only [Option.map]
    unfold pathParams
    by_cases hc : r.path.contains ';' = true
    · rw [if_pos hc, if_pos hc]
    · rw [if_neg hc, if_neg hc]

theorem reverse_takeWhile_decomp (p : List Char) :
    p = (p.reverse.dropWhile (· != '/')).reverse ++
      (p.reverse.takeWhile (· != '/')).reverse := by
  rw [← List.reverse_append, List.takeWhile_append_dropWhile, List.reverse_reverse]

theorem seg_slash_free (p : List Char) :
    ∀ c ∈ (p.reverse.takeWhile (· != '/')).reverse, c ≠ '/' := by
  intro c hc
  rw [List.mem_reverse] at hc
  simpa using List.mem_takeWhile_imp hc

theorem pref_ends_slash (p : List Char) (h : p.contains '/' = true) :
    ∃ t, (p.reverse.dropWhile (· != '/')).reverse = t ++ ['/'] := by
  have hm : '/' ∈ p.reverse := by
    rw [List.mem_reverse]
    exact contains_iff_mem.mp h
  obtain ⟨t, ht⟩ := dropWhile_mem_cons p.reverse '/' hm
  exact ⟨t.reverse, by rw [ht, List.reverse_cons]⟩

theorem path_decomp (p : List Char) (hsl : p.contains '/' = true) :
    ∃ PRE SEG t0, p = PRE ++ SEG ∧ PRE = t0 ++ ['/'] ∧ ∀ c ∈ SEG, c ≠ '/' := by
  obtain ⟨t0, ht0⟩ := pref_ends_slash p hsl
  exact ⟨_, _, t0, reverse_takeWhile_decomp p, ht0, seg_slash_free p⟩

theorem revsplit_eq (PRE SEG t0 : List Char) (hpref : PRE = t0 ++ ['/'])
    (hsegf : ∀ c ∈ SEG, c ≠ '/') :
    ((PRE ++ SEG).reverse.takeWhile (· != '/')).reverse = SEG ∧
    ((PRE ++ SEG).reverse.dropWhile (· != '/')).reverse = PRE := by
  have hrev : (PRE ++ SEG).reverse = SEG.reverse ++ '/' :: t0.reverse := by
    rw [List.reverse_append, hpref, List.reverse_append]
    simp
  have hpos : ∀ c ∈ SEG.reverse, (c != '/') = true := by
    intro c hm
    rw [bne_iff_ne]
    exact hsegf c (List.mem_reverse.mp hm)
  constructor
  · rw [hrev, List.takeWhile_append_of_pos hpos, List.takeWhile_cons,
      if_neg (by simp), List.append_nil, List.reverse_reverse]
  · rw [hrev, List.dropWhile_append_of_pos hpos, List.dropWhile_cons,
      if_neg (by simp), List.reverse_cons, List.reverse_reverse, ← hpref]

theorem splitParams_decomp (PRE SEG t0 : List Char) (hpref : PRE = t0 ++ ['/'])
    (hsegf : ∀ c ∈ SEG, c ≠ '/') :
    splitParams (PRE ++ SEG) =
      if SEG.contains ';' then
        (PRE ++ SEG.takeWhile (· != ';'), (SEG.dropWhile (· != ';')).drop 1)
      else (PRE ++ SEG, []) := by
  have h := revsplit_eq PRE SEG t0 hpref hsegf
  have hsl : (PRE ++ SEG).contains '/' = true := by
    rw [contains_iff_mem]
    refine List.mem_append.mpr (Or.inl ?_)
    rw [hpref]
    exact List.mem_append.mpr (Or.inr (List.mem_singleton.mpr rfl))
  unfold splitParams
  rw [if_pos hsl, h.1, h.2]

theorem pathParams_join (p : List Char) :
    joinParams (pathParams p).1 (pathParams p).2 <+: p ∧
    pathParams (joinParams (pathParams p).1 (pathParams p).2) = pathParams p := by
  by_cases hc : p.contains ';' = true
  case neg =>
    have h0 : pathParams p = (p, []) := by
      unfold pathParams
      rw [if_neg hc]
    rw [h0]
    dsimp only
    have hj : joinParams p [] = p := by
      unfold joinParams
      simp
    rw [hj]
    exact ⟨List.prefix_refl p, h0⟩
  case pos =>
    by_cases hsl : p.contains '/' = true
    case neg =>
      obtain ⟨B, hB⟩ := dropWhile_mem_cons p ';' (contains_iff_mem.mp hc)
      have hdec : p = p.takeWhile (· != ';') ++ ';' :: B := by
        conv_lhs => rw [← List.takeWhile_append_dropWhile (· != ';') p]
        rw [hB]
      have hAfree : ∀ c ∈ p.takeWhile (· != ';'), c ≠ ';' := by
        intro c hm
        simpa using List.mem_takeWhile_imp hm
      have h0 : pathParams p = (p.takeWhile (· != ';'), B) := by
        unfold pathParams splitParams splitOnFirst
        rw [if_pos hc, if_neg hsl, hB]
        rfl
      rw [h0]
      dsimp only
      cases B with
      | nil =>
        have hj : joinParams (p.takeWhile (· != ';')) [] = p.takeWhile (· != ';') := by
          unfold joinParams
          simp
        rw [hj]
        constructor
        · exact ⟨[';'], hdec.symm⟩
        · unfold pathParams
          rw [if_neg (by rw [contains_false_of _ _ hAfree]; simp)]
      | cons b bt =>
        have hj : joinParams (p.takeWhile (· != ';')) (b :: bt) = p := by
          unfold joinParams
          rw [if_pos (by simp)]
          exact hdec.symm
        rw [hj]
        exact ⟨List.prefix_refl p, h0⟩
    case pos =>
      obtain ⟨PRE, SEG, t0, hdec, hpref, hsegf⟩ := path_decomp p hsl
      subst hdec
      by_cases hseg : SEG.contains ';' = true
      case pos =>
        obtain ⟨B, hB⟩ := dropWhile_mem_cons SEG ';' (contains_iff_mem.mp hseg)
        have hSEGdec : SEG = SEG.takeWhile (· != ';') ++ ';' :: B := by
          conv_lhs => rw [← List.takeWhile_append_dropWhile (· != ';') SEG]
          rw [hB]
        have hAfree : ∀ c ∈ SEG.takeWhile (· != ';'), c ≠ ';' := by
          intro c hm
          simpa using List.mem_takeWhile_imp hm
        have hAslash : ∀ c ∈ SEG.takeWhile (· != ';'), c ≠ '/' := by
          intro c hm
          exact hsegf c (( List.takeWhile_prefix _).subset hm)
        have h0 : pathParams (PRE ++ SEG) = (PRE ++ SEG.takeWhile (· != ';'), B) := by
          unfold pathParams
          rw [if_pos hc, splitParams_decomp PRE SEG t0 hpref hsegf, if_pos hseg, hB]
          rfl
        rw [h0]
        dsimp only
        cases B with
        | nil =>
          have hj : joinParams (PRE ++ SEG.takeWhile (· != ';')) [] =
              PRE ++ SEG.takeWhile (· != ';') := by
            unfold joinParams
            simp
          rw [hj]
          constructor
          · refine ⟨[';'], ?_⟩
            conv_rhs => rw [hSEGdec]
            rw [List.append_assoc]
          · by_cases hpc2 : (PRE ++ SEG.takeWhile (· != ';')).contains ';' = true
            · unfold pathParams
              rw [if_pos hpc2,
                splitParams_decomp PRE (SEG.takeWhile (· != ';')) t0 hpref hAslash,
                if_neg (by rw [contains_false_of _ _ hAfree]; simp)]
            · unfold pathParams
              rw [if_neg hpc2]
        | cons b bt =>
          have hj : joinParams (PRE ++ SEG.takeWhile (· != ';')) (b :: bt) =
              PRE ++ SEG := by
            unfold joinParams
            rw [if_pos (by simp)]
            conv_rhs => rw [hSEGdec]
            rw [List.append_assoc]
          rw [hj]
          exact ⟨List.prefix_refl _, h0⟩
      case neg =>
        have h0 : pathParams (PRE ++ SEG) = (PRE ++ SEG, []) := by
          unfold pathParams
          rw [if_pos hc, splitParams_decomp PRE SEG t0 hpref hsegf, if_neg hseg]
        rw [h0]
        dsimp only
        have hj : joinParams (PRE ++ SEG) [] = PRE ++ SEG := by
          unfold joinParams
          simp
        rw [hj]
        exact ⟨List.prefix_refl _, h0⟩

/-! ### Staged form of `urlsplit` and properties of its output -/

/-- The netloc stage: split `//netloc` off the scheme-less remainder. -/
def nlStage (w : List Char) : List Char × List Char :=
  if w.take 2 = ['/', '/'] then
    ((w.drop 2).takeWhile (fun c => !netlocDelim c),
     (w.drop 2).dropWhile (fun c => !netlocDelim c))
  else ([], w)

/-- The fragment stage: split at the first `#`, if any. -/
def frStage (w : List Char) : List Char × List Char :=
  if w.contains '#' then splitOnFirst '#' w else (w, [])

/-- The query stage: split the pre-fragment part at the first `?`. -/
def pqStage (w : List Char) : List Char × List Char :=
  if (frStage w).1.contains '?' then splitOnFirst '?' (frStage w).1
  else ((frStage w).1, [])

theorem urlsplit_eq (url : List Char) :
    urlsplit url =
      if ((nlStage (splitScheme (sanitizeUrl url)).2).1.contains '[' &&
          !(nlStage (splitScheme (sanitizeUrl url)).2).1.contains ']') ||
         ((nlStage (splitScheme (sanitizeUrl url)).2).1.contains ']' &&
          !(nlStage (splitScheme (sanitizeUrl url)).2).1.contains '[') then none
      else some ⟨(splitScheme (sanitizeUrl url)).1,
        (nlStage (splitScheme (sanitizeUrl url)).2).1,
        (pqStage (nlStage (splitScheme (sanitizeUrl url)).2).2).1,
        (pqStage (nlStage (splitScheme (sanitizeUrl url)).2).2).2,
        (frStage (nlStage (splitScheme (sanitizeUrl url)).2).2).2⟩ := rfl

theorem start_slash {P w : List Char} (hpre : P <+: w)
    (hw : ∀ c ∈ w.take 1, netlocDelim c = true)
    (hfree : ∀ c ∈ P, c ≠ '?' ∧ c ≠ '#') :
    P = [] ∨ P.take 1 = ['/'] := by
  cases P with
  | nil => exact Or.inl rfl
  | cons a t =>
    right
    have h1 : w.take 1 = [a] := by
      rw [pre_take1 hpre (by simp)]
      rfl
    have hd := hw a (by rw [h1]; simp)
    have hf := hfree a (by simp)
    simp only [netlocDelim, Bool.or_eq_true, decide_eq_true_eq] at hd
    rcases hd with (hd | hd) | hd
    · rw [hd]
      rfl
    · exact absurd hd hf.1
    · exact absurd hd hf.2

theorem nlStage_props (w : List Char) :
    (∀ c ∈ (nlStage w).1, netlocDelim c = false) ∧
    (∀ c ∈ (nlStage w).1, c ∈ w) ∧
    (∀ c ∈ (nlStage w).2, c ∈ w) ∧
    (((nlStage w).1 = [] ∧ (nlStage w).2 = w) ∨
      (∀ c ∈ ((nlStage w).2).take 1, netlocDelim c = true)) := by
  unfold nlStage
  by_cases h2 : w.take 2 = ['/', '/']
  · rw [if_pos h2]
    dsimp only
    refine ⟨?_, ?_, ?_, Or.inr ?_⟩
    · intro c hm
      have := List.mem_takeWhile_imp hm
      simpa using this
    · intro c hm
      exact (List.drop_sublist _ _).subset (( List.takeWhile_prefix _).subset hm)
    · intro c hm
      exact (List.drop_sublist _ _).subset ((List.dropWhile_sublist _).subset hm)
    · cases hd : (w.drop 2).dropWhile (fun c => !netlocDelim c) with
      | nil =>
        intro c hc
        simp at hc
      | cons a t =>
        intro c hc
        simp only [List.take_succ_cons, List.take_zero, List.mem_singleton] at hc
        rw [hc]
        have := dropWhile_head_false _ (w.drop 2) a t hd
        simpa using this
  · rw [if_neg h2]
    exact ⟨fun c hm => by simp at hm, fun c hm => by simp at hm, fun c hm => hm,
      Or.inl ⟨rfl, rfl⟩⟩

theorem pqStage_props (w : List Char) :
    (∀ c ∈ (pqStage w).1, c ≠ '?' ∧ c ≠ '#') ∧
    ((pqStage w).1 <+: w) ∧
    (∀ c ∈ (pqStage w).2, c ≠ '#') ∧
    (∀ c ∈ (pqStage w).2, c ∈ w) ∧
    (∀ c ∈ (frStage w).2, c ∈ w) := by
  have hfr1free : ∀ c ∈ (frStage w).1, c ≠ '#' := optSplit_fst_free '#' w
  have hfr1pre : (frStage w).1 <+: w := optSplit_fst_pre '#' w
  have hq1free : ∀ c ∈ (pqStage w).1, c ≠ '?' := optSplit_fst_free '?' (frStage w).1
  have hq1pre : (pqStage w).1 <+: (frStage w).1 := optSplit_fst_pre '?' (frStage w).1
  have hq2mem : ∀ c ∈ (pqStage w).2, c ∈ (frStage w).1 :=
    optSplit_snd_mem '?' (frStage w).1
  refine ⟨?_, hq1pre.trans hfr1pre, ?_, ?_, optSplit_snd_mem '#' w⟩
  · intro c hm
    exact ⟨hq1free c hm, hfr1free c (hq1pre.subset hm)⟩
  · intro c hm
    exact hfr1free c (hq2mem c hm)
  · intro c hm
    exact hfr1pre.subset (hq2mem c hm)

theorem urlsplit_props (u : List Char) (r : SplitResult) (h : urlsplit u = some r) :
    (r.scheme = [] ∨ (schemeValid r.scheme = true ∧
      r.scheme.map Char.toLower = r.scheme)) ∧
    (∀ c ∈ r.netloc, netlocDelim c = false) ∧
    (('[' ∈ r.netloc) ↔ (']' ∈ r.netloc)) ∧
    (r.netloc ≠ [] → r.path = [] ∨ r.path.take 1 = ['/']) ∧
    (∀ c ∈ r.path, c ≠ '?' ∧ c ≠ '#') ∧
    (∀ c ∈ r.query, c ≠ '#') ∧
    (∀ c ∈ r.netloc, c.toNat ≠ 9 ∧ c.toNat ≠ 13 ∧ c.toNat ≠ 10) ∧
    (∀ c ∈ r.path, c.toNat ≠ 9 ∧ c.toNat ≠ 13 ∧ c.toNat ≠ 10) ∧
    (∀ c ∈ r.query, c.toNat ≠ 9 ∧ c.toNat ≠ 13 ∧ c.toNat ≠ 10) ∧
    (∀ c ∈ r.fragment, c.toNat ≠ 9 ∧ c.toNat ≠ 13 ∧ c.toNat ≠ 10) ∧
    (r.scheme = [] → r.netloc = [] → splitScheme r.path = ([], r.path)) ∧
    (r.scheme = [] → r.netloc = [] → ∀ c ∈ r.path.take 1, 0x20 < c.toNat) := by
  rw [urlsplit_eq] at h
  split at h
  · exact absurd h (by simp)
  · rename_i hbrC
    have hre := Option.some.inj h
    subst hre
    dsimp only
    obtain ⟨hnlfree, hnlmem, hnl2mem, hnlcase⟩ :=
      nlStage_props (splitScheme (sanitizeUrl u)).2
    obtain ⟨hpfree, hppre, hqfree, hqmem, hfmem⟩ :=
      pqStage_props (nlStage (splitScheme (sanitizeUrl u)).2).2
    rcases splitScheme_cases (sanitizeUrl u) with hsp | ⟨sch, T, hdec2, hval, hsp⟩
    · have hSP2 : (splitScheme (sanitizeUrl u)).2 = sanitizeUrl u := by rw [hsp]
      have hS1 : (splitScheme (sanitizeUrl u)).1 = [] := by rw [hsp]
      have hSP2mem : ∀ c ∈ (splitScheme (sanitizeUrl u)).2, c ∈ sanitizeUrl u := by
        rw [hSP2]
        exact fun c hm => hm
      refine ⟨Or.inl hS1, hnlfree, bracket_ok hbrC, ?_, hpfree, hqfree,
        ?_, ?_, ?_, ?_, ?_, ?_⟩
      · intro hne
        rcases hnlcase with ⟨hn1, _⟩ | hdel
        · exact absurd hn1 hne
        · exact start_slash hppre hdel hpfree
      · intro c hm
        exact sanitizeUrl_mem c (hSP2mem c (hnlmem c hm))
      · intro c hm
        exact sanitizeUrl_mem c (hSP2mem c (hnl2mem c (hppre.subset hm)))
      · intro c hm
        exact sanitizeUrl_mem c (hSP2mem c (hnl2mem c (hqmem c hm)))
      · intro c hm
        exact sanitizeUrl_mem c (hSP2mem c (hnl2mem c (hfmem c hm)))
      · intro _ _
        rcases hnlcase with ⟨_, hn2⟩ | hdel
        · obtain ⟨t1, ht1⟩ := hppre
          have hpre2 : (pqStage (nlStage (splitScheme (sanitizeUrl u)).2).2).1 <+:
              sanitizeUrl u := ⟨t1, by rw [ht1, hn2]; exact hSP2⟩
          obtain ⟨tl, htl⟩ := hpre2
          apply splitScheme_prefix_nil _ tl
          rw [htl]
          exact hsp
        · exact splitScheme_slash _ (start_slash hppre hdel hpfree)
      · intro _ _ c hc
        rcases hnlcase with ⟨_, hn2⟩ | hdel
        · obtain ⟨t1, ht1⟩ := hppre
          have hpre2 : (pqStage (nlStage (splitScheme (sanitizeUrl u)).2).2).1 <+:
              sanitizeUrl u := ⟨t1, by rw [ht1, hn2]; exact hSP2⟩
          by_cases hP0 : (pqStage (nlStage (splitScheme (sanitizeUrl u)).2).2).1 = []
          · rw [hP0] at hc
            simp at hc
          · rw [← pre_take1 hpre2 hP0] at hc
            exact sanitizeUrl_head u c hc
        · rcases start_slash hppre hdel hpfree with h0 | h1
          · rw [h0] at hc
            simp at hc
          · rw [h1] at hc
            have hc2 : c = '/' := by simpa using hc
            rw [hc2]
            decide
    · have hS1 : (splitScheme (sanitizeUrl u)).1 = sch.map Char.toLower := by rw [hsp]
      have hSP2mem : ∀ c ∈ (splitScheme (sanitizeUrl u)).2, c ∈ sanitizeUrl u := by
        intro c hm
        rw [hsp] at hm
        rw [hdec2]
        exact List.mem_append.mpr (Or.inr (List.mem_cons_of_mem _ hm))
      have hschne : sch.map Char.toLower ≠ [] := by
        intro h0
        rw [List.map_eq_nil] at h0
        rw [h0] at hval
        cases hval
      refine ⟨Or.inr ⟨?_, ?_⟩, hnlfree, bracket_ok hbrC, ?_, hpfree, hqfree,
        ?_, ?_, ?_, ?_, ?_, ?_⟩
      · rw [hS1]
        exact schemeValid_toLower hval
      · rw [hS1, map_toLower_idem]
      · intro hne
        rcases hnlcase with ⟨hn1, _⟩ | hdel
        · exact absurd hn1 hne
        · exact start_slash hppre hdel hpfree
      · intro c hm
        exact sanitizeUrl_mem c (hSP2mem c (hnlmem c hm))
      · intro c hm
        exact sanitizeUrl_mem c (hSP2mem c (hnl2mem c (hppre.subset hm)))
      · intro c hm
        exact sanitizeUrl_mem c (hSP2mem c (hnl2mem c (hqmem c hm)))
      · intro c hm
        exact sanitizeUrl_mem c (hSP2mem c (hnl2mem c (hfmem c hm)))
      · intro hs0 _
        rw [hS1] at hs0
        exact absurd hs0 hschne
      · intro hs0 _
        rw [hS1] at hs0
        exact absurd hs0 hschne

/-! ### Re-splitting a URL reassembled from `urlsplit` output -/

theorem fuzzify_reassembled (u : List Char) (r : SplitResult)
    (hu : urlsplit u = some r) (Q : List Char)
    (hQfree : ∀ c ∈ Q, c ≠ '#')
    (hQclean : ∀ c ∈ Q, c.toNat ≠ 9 ∧ c.toNat ≠ 13 ∧ c.toNat ≠ 10) :
    urlsplit (urlunsplit ⟨r.scheme, r.netloc,
      joinParams (pathParams r.path).1 (pathParams r.path).2, Q, r.fragment⟩) =
    some ⟨r.scheme, r.netloc,
      joinParams (pathParams r.path).1 (pathParams r.path).2, Q, r.fragment⟩ := by
  obtain ⟨hs, hn, hbr, hps, hpc, hqc, hclN, hclP, hclQ2, hclF, hnos, hhead⟩ :=
    urlsplit_props u r hu
  obtain ⟨hjpre, hjidem⟩ := pathParams_join r.path
  apply urlsplit_urlunsplit_roundtrip
  · exact hs
  · intro hs0 hn0
    obtain ⟨tj, htj⟩ := hjpre
    exact splitScheme_prefix_nil _ tj (by rw [htj]; exact hnos hs0 hn0)
  · exact hn
  · exact hbr
  · intro hne
    rcases hps hne with h0 | h1
    · obtain ⟨t, ht⟩ := hjpre
      exact Or.inl (List.append_eq_nil.mp (ht.trans h0)).1
    · by_cases hpp0 : joinParams (pathParams r.path).1 (pathParams r.path).2 = []
      · exact Or.inl hpp0
      · right
        rw [← pre_take1 hjpre hpp0]
        exact h1
  · intro c hm
    exact hpc c (hjpre.subset hm)
  · exact hQfree
  · exact hclN
  · intro c hm
    exact hclP c (hjpre.subset hm)
  · exact hQclean
  · exact hclF
  · intro hs0 hn0 c hc
    by_cases hpp0 : joinParams (pathParams r.path).1 (pathParams r.path).2 = []
    · rw [hpp0] at hc
      simp at hc
    · rw [← pre_take1 hjpre hpp0] at hc
      exact hhead hs0 hn0 c hc

theorem fuzzify_of_urlparse (u k : List Char) (hnin : ¬ pyIn k u)
    (R : ParseResult) (hp : urlparse u = some R) :
    fuzzify_url u k = some (urlunsplit ⟨R.scheme, R.netloc,
      joinParams R.path R.params,
      urlencode ((parse_qsl R.query false).map fun kv => (kv.1, k)),
      R.fragment⟩) := by
  unfold fuzzify_url
  rw [if_neg hnin, hp]
  rfl

theorem fuzzify_fixed (u k : List Char) (hk : k ≠ []) (r : SplitResult)
    (hu : urlsplit u = some r) :
    fuzzify_url (urlunsplit ⟨r.scheme, r.netloc,
      joinParams (pathParams r.path).1 (pathParams r.path).2,
      urlencode ((parse_qsl r.query false).map fun kv => (kv.1, k)),
      r.fragment⟩) k =
    some (urlunsplit ⟨r.scheme, r.netloc,
      joinParams (pathParams r.path).1 (pathParams r.path).2,
      urlencode ((parse_qsl r.query false).map fun kv => (kv.1, k)),
      r.fragment⟩) := by
  by_cases hin : pyIn k (urlunsplit ⟨r.scheme, r.netloc,
      joinParams (pathParams r.path).1 (pathParams r.path).2,
      urlencode ((parse_qsl r.query false).map fun kv => (kv.1, k)),
      r.fragment⟩)
  · unfold fuzzify_url
    rw [if_pos hin]
  · have hQprops := urlencode_no_delims
      ((parse_qsl r.query false).map fun kv => (kv.1, k))
    have hsplit := fuzzify_reassembled u r hu
      (urlencode ((parse_qsl r.query false).map fun kv => (kv.1, k)))
      (fun c hm => (hQprops c hm).1) (fun c hm => (hQprops c hm).2)
    obtain ⟨hjpre, hjidem⟩ := pathParams_join r.path
    have hparse : urlparse (urlunsplit ⟨r.scheme, r.netloc,
        joinParams (pathParams r.path).1 (pathParams r.path).2,
        urlencode ((parse_qsl r.query false).map fun kv => (kv.1, k)),
        r.fragment⟩) = some ⟨r.scheme, r.netloc,
        (pathParams r.path).1, (pathParams r.path).2,
        urlencode ((parse_qsl r.query false).map fun kv => (kv.1, k)),
        r.fragment⟩ := by
      rw [urlparse_pathParams, hsplit]
      dsimp only [Option.map]
      rw [hjidem]
    unfold fuzzify_url
    rw [if_neg hin, hparse]
    dsimp only
    have hq : parse_qsl (urlencode
        ((parse_qsl r.query false).map fun kv => (kv.1, k))) false
        = (parse_qsl r.query false).map fun kv => (kv.1, k) := by
      apply parse_qsl_urlencode
      intro kv hkv
      simp only [List.mem_map] at hkv
      obtain ⟨kv0, _, rfl⟩ := hkv
      exact hk
    rw [hq, List.map_map]
    rfl

/-- `""` is a substring of every string, so an empty keyword always takes
the first branch of `fuzzify_url`. -/
theorem pyIn_nil (u : List Char) : pyIn [] u :=
  List.nil_infix

/-! ### `str.replace` replaces every occurrence -/

theorem splitOnSeqF_ne_nil (sep : List Char) :
    ∀ (fuel : Nat) (s : List Char), splitOnSeqF sep fuel s ≠ [] := by
  intro fuel
  induction fuel with
  | zero =>
    intro s
    cases s <;> simp [splitOnSeqF]
  | succ n ih =>
    intro s
    cases s with
    | nil => simp [splitOnSeqF]
    | cons c t =>
      simp only [splitOnSeqF]
      split
      · simp
      · cases h : splitOnSeqF sep n t <;> simp [consHead]

theorem intercalate_cons_ne (new x : List Char) (L : List (List Char))
    (hL : L ≠ []) :
    List.intercalate new (x :: L) = x ++ new ++ List.intercalate new L := by
  cases L with
  | nil => exact absurd rfl hL
  | cons y t => simp [List.intercalate, List.intersperse]

theorem intercalate_consHead (new : List Char) (c : Char) (L : List (List Char))
    (hL : L ≠ []) :
    List.intercalate new (consHead c L) = c :: List.intercalate new L := by
  cases L with
  | nil => exact absurd rfl hL
  | cons x t =>
    show List.intercalate new ((c :: x) :: t) = c :: List.intercalate new (x :: t)
    cases t with
    | nil => simp [List.intercalate]
    | cons y t2 =>
      rw [intercalate_cons_ne new (c :: x) (y :: t2) (by simp),
        intercalate_cons_ne new x (y :: t2) (by simp)]
      simp

theorem replaceF_spec (old new : List Char) :
    ∀ (fuel : Nat) (s : List Char),
      List.intercalate new (splitOnSeqF old fuel s) = pyReplaceF old new fuel s := by
  intro fuel
  induction fuel with
  | zero =>
    intro s
    cases s with
    | nil => simp [splitOnSeqF, pyReplaceF, List.intercalate]
    | cons c t => simp [splitOnSeqF, pyReplaceF, List.intercalate]
  | succ n ih =>
    intro s
    cases s with
    | nil => simp [splitOnSeqF, pyReplaceF, List.intercalate]
    | cons c t =>
      simp only [splitOnSeqF, pyReplaceF]
      by_cases hp : old.isPrefixOf (c :: t)
      · rw [if_pos hp, if_pos hp,
          intercalate_cons_ne new [] _ (splitOnSeqF_ne_nil old n _), ih _]
        simp
      · rw [if_neg hp, if_neg hp,
          intercalate_consHead new c _ (splitOnSeqF_ne_nil old n t), ih t]

/-- With a nonempty pattern, Python `str.replace` is exactly: split on every
occurrence of the pattern and re-join the pieces with the replacement. -/
theorem pyReplace_spec (s old new : List Char) (hold : old ≠ []) :
    pyReplace s old new = replaceAllSpec s old new := by
  unfold pyReplace replaceAllSpec splitOnSeq
  rw [if_neg hold]
  exact (replaceF_spec old new s.length s).symm

/-! ### `str.strip` strips both ends -/

theorem reverse_decomp {α : Type} (pr : α → Bool) (l : List α) :
    l = (l.reverse.dropWhile pr).reverse ++ (l.reverse.takeWhile pr).reverse := by
  rw [← List.reverse_append, List.takeWhile_append_dropWhile, List.reverse_reverse]

theorem pyStrip_decomp (l : List Char) :
    ∃ pre post, l = pre ++ pyStrip l ++ post ∧
      (∀ c ∈ pre, isPySpace c = true) ∧ (∀ c ∈ post, isPySpace c = true) ∧
      (∀ c ∈ (pyStrip l).take 1, isPySpace c = false) ∧
      (∀ c ∈ (pyStrip l).reverse.take 1, isPySpace c = false) := by
  refine ⟨l.takeWhile isPySpace,
    ((l.dropWhile isPySpace).reverse.takeWhile isPySpace).reverse, ?_, ?_, ?_, ?_, ?_⟩
  · unfold pyStrip
    conv_lhs => rw [← List.takeWhile_append_dropWhile isPySpace l]
    rw [List.append_assoc]
    congr 1
    exact reverse_decomp isPySpace (l.dropWhile isPySpace)
  · intro c hm
    exact List.mem_takeWhile_imp hm
  · intro c hm
    rw [List.mem_reverse] at hm
    exact List.mem_takeWhile_imp hm
  · have hpre : pyStrip l <+: l.dropWhile isPySpace := by
      refine ⟨((l.dropWhile isPySpace).reverse.takeWhile isPySpace).reverse, ?_⟩
      exact (reverse_decomp isPySpace (l.dropWhile isPySpace)).symm
    intro c hm
    by_cases h0 : pyStrip l = []
    · rw [h0] at hm
      cases hm
    · rw [← pre_take1 hpre h0] at hm
      cases hd : l.dropWhile isPySpace with
      | nil =>
        rw [hd] at hm
        cases hm
      | cons a t =>
        rw [hd] at hm
        simp only [List.take_succ_cons, List.take_zero, List.mem_singleton] at hm
        rw [hm]
        exact dropWhile_head_false _ l a t hd
  · intro c hm
    unfold pyStrip at hm
    rw [List.reverse_reverse] at hm
    cases hd : (l.dropWhile isPySpace).reverse.dropWhile isPySpace with
    | nil =>
      rw [hd] at hm
      cases hm
    | cons a t =>
      rw [hd] at hm
      simp only [List.take_succ_cons, List.take_zero, List.mem_singleton] at hm
      rw [hm]
      exact dropWhile_head_false _ _ a t hd

/-! ## The dispatch engine (lines 45–77)

`process_urls` creates ONE asyncio task per URL; each task acquires the
shared `asyncio.Semaphore(args.concurrency)` once (line 54: `async with
semaphore:` wraps the whole payload loop), then for each payload builds
`filled_url = url.replace(keyword, payload)` (line 56), awaits one fetch
at a time, and calls `pbar.update(1)` after each (line 64).  `fetch_url`
returns the response or, for the caught exception tuple (lines 47–51),
`None`; an exception outside the tuple propagates out of `process_url`
(releasing the semaphore, since `async with` releases on exception) and
is captured by `asyncio.gather(..., return_exceptions=True)` (line 69).

The small-step system below has one task per URL with phases
`waiting` (created), `ready` (slot held, between fetches), `inflight`
(one fetch awaited), `done` (loop finished, slot released) and `crashed`
(uncaught exception reached `gather`, slot released).  `ticks` counts
`pbar.update(1)` calls, `acquires` semaphore acquisitions, and each
task logs the request URLs it issued, in order. -/

structure Conf where
  urls : List (List Char)
  payloads : List (List Char)
  keyword : List Char
  conc : Nat
deriving DecidableEq

inductive Phase where
  | waiting
  | ready
  | inflight
  | done
  | crashed
deriving DecidableEq

structure Task where
  url : List Char
  rem : List (List Char)
  issued : List (List Char)
  phase : Phase
deriving DecidableEq

structure St where
  tasks : List Task
  avail : Nat
  ticks : Nat
  acquires : Nat
deriving DecidableEq

def initSt (cf : Conf) : St :=
  ⟨cf.urls.map (fun u => ⟨u, cf.payloads, [], Phase.waiting⟩), cf.conc, 0, 0⟩

inductive Step (cf : Conf) : St → St → Prop where
  | acquire (s : St) (i : Nat) (t : Task) (hi : s.tasks[i]? = some t)
      (hph : t.phase = Phase.waiting) (hav : 0 < s.avail) :
      Step cf s ⟨s.tasks.set i ⟨t.url, t.rem, t.issued, Phase.ready⟩,
        s.avail - 1, s.ticks, s.acquires + 1⟩
  | issue (s : St) (i : Nat) (t : Task) (p : List Char) (rem2 : List (List Char))
      (hi : s.tasks[i]? = some t) (hph : t.phase = Phase.ready)
      (hrem : t.rem = p :: rem2) :
      Step cf s ⟨s.tasks.set i ⟨t.url, rem2,
        t.issued ++ [pyReplace t.url cf.keyword p], Phase.inflight⟩,
        s.avail, s.ticks, s.acquires⟩
  | complete (s : St) (i : Nat) (t : Task) (hi : s.tasks[i]? = some t)
      (hph : t.phase = Phase.inflight) :
      Step cf s ⟨s.tasks.set i ⟨t.url, t.rem, t.issued, Phase.ready⟩,
        s.avail, s.ticks + 1, s.acquires⟩
  | crash (s : St) (i : Nat) (t : Task) (hi : s.tasks[i]? = some t)
      (hph : t.phase = Phase.inflight) :
      Step cf s ⟨s.tasks.set i ⟨t.url, t.rem, t.issued, Phase.crashed⟩,
        s.avail + 1, s.ticks, s.acquires⟩
  | finish (s : St) (i : Nat) (t : Task) (hi : s.tasks[i]? = some t)
      (hph : t.phase = Phase.ready) (hrem : t.rem = []) :
      Step cf s ⟨s.tasks.set i ⟨t.url, t.rem, t.issued, Phase.done⟩,
        s.avail + 1, s.ticks, s.acquires⟩

def Reaches (cf : Conf) (s1 s2 : St) : Prop :=
  Relation.ReflTransGen (Step cf) s1 s2

/-- Requests issued but not yet answered. -/
def outstanding (s : St) : Nat :=
  s.tasks.countP (fun t => t.phase == Phase.inflight)

def issuedTotal (s : St) : Nat := (s.tasks.map (fun t => t.issued.length)).sum

def AllDone (s : St) : Prop := ∀ t ∈ s.tasks, t.phase = Phase.done

def Terminal (s : St) : Prop :=
  ∀ t ∈ s.tasks, t.phase = Phase.done ∨ t.phase = Phase.crashed

/-! ### List bookkeeping lemmas for `set` -/

theorem mem_of_get? {α : Type} :
    ∀ (l : List α) (i : Nat) (t : α), l[i]? = some t → t ∈ l := by
  intro l
  induction l with
  | nil =>
    intro i t hi
    simp at hi
  | cons a as ih =>
    intro i t hi
    cases i with
    | zero =>
      simp only [List.getElem?_cons_zero, Option.some.injEq] at hi
      exact hi ▸ List.mem_cons_self a as
    | succ n =>
      simp only [List.getElem?_cons_succ] at hi
      exact List.mem_cons_of_mem a (ih n t hi)

theorem countP_set {α : Type} (pr : α → Bool) :
    ∀ (l : List α) (i : Nat) (t x : α), l[i]? = some t →
      (l.set i x).countP pr + (if pr t then 1 else 0) =
        l.countP pr + (if pr x then 1 else 0) := by
  intro l
  induction l with
  | nil =>
    intro i t x hi
    simp at hi
  | cons a as ih =>
    intro i t x hi
    cases i with
    | zero =>
      simp only [List.getElem?_cons_zero, Option.some.injEq] at hi
      subst hi
      rw [List.set_cons_zero, List.countP_cons, List.countP_cons]
      by_cases hx : pr x <;> by_cases ha : pr a <;> simp [hx, ha] <;> omega
    | succ n =>
      simp only [List.getElem?_cons_succ] at hi
      rw [List.set_cons_succ, List.countP_cons, List.countP_cons]
      have := ih n t x hi
      omega

theorem sum_map_set {α : Type} (f : α → Nat) :
    ∀ (l : List α) (i : Nat) (t x : α), l[i]? = some t →
      ((l.set i x).map f).sum + f t = (l.map f).sum + f x := by
  intro l
  induction l with
  | nil =>
    intro i t x hi
    simp at hi
  | cons a as ih =>
    intro i t x hi
    cases i with
    | zero =>
      simp only [List.getElem?_cons_zero, Option.some.injEq] at hi
      subst hi
      rw [List.set_cons_zero, List.map_cons, List.map_cons, List.sum_cons,
        List.sum_cons]
      omega
    | succ n =>
      simp only [List.getElem?_cons_succ] at hi
      rw [List.set_cons_succ, List.map_cons, List.map_cons, List.sum_cons,
        List.sum_cons]
      have := ih n t x hi
      omega

theorem map_set_eq {α β : Type} (f : α → β) :
    ∀ (l : List α) (i : Nat) (t x : α), l[i]? = some t → f x = f t →
      (l.set i x).map f = l.map f := by
  intro l
  induction l with
  | nil =>
    intro i t x hi _
    simp at hi
  | cons a as ih =>
    intro i t x hi hf
    cases i with
    | zero =>
      simp only [List.getElem?_cons_zero, Option.some.injEq] at hi
      subst hi
      rw [List.set_cons_zero, List.map_cons, List.map_cons, hf]
    | succ n =>
      simp only [List.getElem?_cons_succ] at hi
      rw [List.set_cons_succ, List.map_cons, List.map_cons, ih n t x hi hf]

theorem countP_mono {α : Type} (p q : α → Bool) :
    ∀ (l : List α), (∀ a ∈ l, p a = true → q a = true) →
      l.countP p ≤ l.countP q := by
  intro l
  induction l with
  | nil =>
    intro _
    exact Nat.le_refl 0
  | cons a as ih =>
    intro h
    rw [List.countP_cons, List.countP_cons]
    have h1 := ih (fun x hx hp => h x (List.mem_cons_of_mem a hx) hp)
    by_cases hp : p a
    · rw [h a (List.mem_cons_self a as) hp]
      simp only [hp]
      omega
    · simp only [hp]
      by_cases hq : q a <;> simp [hq] <;> omega

theorem sum_map_const {α : Type} (f : α → Nat) (k : Nat) :
    ∀ (l : List α), (∀ a ∈ l, f a = k) → (l.map f).sum = l.length * k := by
  intro l
  induction l with
  | nil =>
    intro _
    simp
  | cons a as ih =>
    intro h
    rw [List.map_cons, List.sum_cons, h a (List.mem_cons_self a as),
      ih (fun x hx => h x (List.mem_cons_of_mem a hx)), List.length_cons]
    ring

/-! ### The dispatch invariant -/

def TaskInv (cf : Conf) (t : Task) : Prop :=
  (∃ cs, cf.payloads = cs ++ t.rem ∧
    t.issued = cs.map (fun p => pyReplace t.url cf.keyword p)) ∧
  (t.phase = Phase.done → t.rem = [])

def Inv (cf : Conf) (s : St) : Prop :=
  s.tasks.map (fun t => t.url) = cf.urls ∧
  s.avail + s.tasks.countP
    (fun t => t.phase == Phase.ready || t.phase == Phase.inflight) = cf.conc ∧
  s.ticks + s.tasks.countP (fun t => t.phase == Phase.inflight) +
    s.tasks.countP (fun t => t.phase == Phase.crashed) = issuedTotal s ∧
  s.acquires + s.tasks.countP (fun t => t.phase == Phase.waiting)
    = cf.urls.length ∧
  ∀ t ∈ s.tasks, TaskInv cf t

theorem inv_init (cf : Conf) : Inv cf (initSt cf) := by
  have hz1 : (cf.urls.map
      (fun u => (⟨u, cf.payloads, [], Phase.waiting⟩ : Task))).countP
      (fun t => t.phase == Phase.ready || t.phase == Phase.inflight) = 0 := by
    rw [List.countP_eq_zero]
    intro t ht
    simp only [List.mem_map] at ht
    obtain ⟨u, _, rfl⟩ := ht
    simp
  have hz2 : (cf.urls.map
      (fun u => (⟨u, cf.payloads, [], Phase.waiting⟩ : Task))).countP
      (fun t => t.phase == Phase.inflight) = 0 := by
    rw [List.countP_eq_zero]
    intro t ht
    simp only [List.mem_map] at ht
    obtain ⟨u, _, rfl⟩ := ht
    simp
  have hz3 : (cf.urls.map
      (fun u => (⟨u, cf.payloads, [], Phase.waiting⟩ : Task))).countP
      (fun t => t.phase == Phase.crashed) = 0 := by
    rw [List.countP_eq_zero]
    intro t ht
    simp only [List.mem_map] at ht
    obtain ⟨u, _, rfl⟩ := ht
    simp
  have hz4 : (cf.urls.map
      (fun u => (⟨u, cf.payloads, [], Phase.waiting⟩ : Task))).countP
      (fun t => t.phase == Phase.waiting) = (cf.urls.map
      (fun u => (⟨u, cf.payloads, [], Phase.waiting⟩ : Task))).length := by
    rw [List.countP_eq_length]
    intro t ht
    simp only [List.mem_map] at ht
    obtain ⟨u, _, rfl⟩ := ht
    simp
  have hz5 : ((cf.urls.map
      (fun u => (⟨u, cf.payloads, [], Phase.waiting⟩ : Task))).map
      (fun t => t.issued.length)).sum = 0 := by
    apply List.sum_eq_zero
    intro x hx
    simp only [List.map_map, List.mem_map] at hx
    obtain ⟨u, _, rfl⟩ := hx
    rfl
  unfold Inv initSt issuedTotal
  dsimp only
  refine ⟨?_, ?_, ?_, ?_, ?_⟩
  · rw [List.map_map,
      show ((fun (t : Task) => t.url) ∘
        fun u => (⟨u, cf.payloads, [], Phase.waiting⟩ : Task)) = id from rfl]
    exact List.map_id cf.urls
  · rw [hz1]
    omega
  · rw [hz2, hz3, hz5]
  · rw [hz4, List.length_map]
    omega
  · intro t ht
    simp only [List.mem_map] at ht
    obtain ⟨u, _, rfl⟩ := ht
    exact ⟨⟨[], by simp, rfl⟩, fun h => by cases h⟩

theorem inv_step (cf : Conf) {s s2 : St} (h : Step cf s s2) (hinv : Inv cf s) :
    Inv cf s2 := by
  obtain ⟨hurl, hsem, htick, hacq, htask⟩ := hinv
  have hTI : ∀ {i : Nat} {t : Task}, s.tasks[i]? = some t → TaskInv cf t :=
    fun hi => htask _ (mem_of_get? _ _ _ hi)
  cases h with
  | acquire i t hi hph hav =>
    have hc1 := countP_set
      (fun t => t.phase == Phase.ready || t.phase == Phase.inflight)
      s.tasks i t ⟨t.url, t.rem, t.issued, Phase.ready⟩ hi
    have hc2 := countP_set (fun t => t.phase == Phase.inflight)
      s.tasks i t ⟨t.url, t.rem, t.issued, Phase.ready⟩ hi
    have hc3 := countP_set (fun t => t.phase == Phase.crashed)
      s.tasks i t ⟨t.url, t.rem, t.issued, Phase.ready⟩ hi
    have hc4 := countP_set (fun t => t.phase == Phase.waiting)
      s.tasks i t ⟨t.url, t.rem, t.issued, Phase.ready⟩ hi
    have hs1 := sum_map_set (fun t => t.issued.length)
      s.tasks i t ⟨t.url, t.rem, t.issued, Phase.ready⟩ hi
    simp only [hph] at hc1 hc2 hc3 hc4
    simp at hc1 hc2 hc3 hc4
    dsimp only at hs1
    refine ⟨?_, ?_, ?_, ?_, ?_⟩
    · rw [map_set_eq (fun x : Task => x.url) s.tasks i t ⟨t.url, t.rem, t.issued, Phase.ready⟩ hi rfl]
      exact hurl
    · dsimp only
      omega
    · unfold issuedTotal at htick ⊢
      dsimp only
      omega
    · dsimp only
      omega
    · intro t2 ht2
      rcases List.mem_or_eq_of_mem_set ht2 with hmem | rfl
      · exact htask t2 hmem
      · obtain ⟨⟨cs, hcs, hiss⟩, _⟩ := hTI hi
        exact ⟨⟨cs, hcs, hiss⟩, fun h => by cases h⟩
  | issue i t p rem2 hi hph hrem =>
    have hc1 := countP_set
      (fun t => t.phase == Phase.ready || t.phase == Phase.inflight)
      s.tasks i t ⟨t.url, rem2,
        t.issued ++ [pyReplace t.url cf.keyword p], Phase.inflight⟩ hi
    have hc2 := countP_set (fun t => t.phase == Phase.inflight)
      s.tasks i t ⟨t.url, rem2,
        t.issued ++ [pyReplace t.url cf.keyword p], Phase.inflight⟩ hi
    have hc3 := countP_set (fun t => t.phase == Phase.crashed)
      s.tasks i t ⟨t.url, rem2,
        t.issued ++ [pyReplace t.url cf.keyword p], Phase.inflight⟩ hi
    have hc4 := countP_set (fun t => t.phase == Phase.waiting)
      s.tasks i t ⟨t.url, rem2,
        t.issued ++ [pyReplace t.url cf.keyword p], Phase.inflight⟩ hi
    have hs1 := sum_map_set (fun t => t.issued.length)
      s.tasks i t ⟨t.url, rem2,
        t.issued ++ [pyReplace t.url cf.keyword p], Phase.inflight⟩ hi
    simp only [hph] at hc1 hc2 hc3 hc4
    simp at hc1 hc2 hc3 hc4
    dsimp only at hs1
    simp only [List.length_append, List.length_cons, List.length_nil] at hs1
    refine ⟨?_, ?_, ?_, ?_, ?_⟩
    · rw [map_set_eq (fun x : Task => x.url) s.tasks i t ⟨t.url, rem2,
        t.issued ++ [pyReplace t.url cf.keyword p], Phase.inflight⟩ hi rfl]
      exact hurl
    · dsimp only
      omega
    · unfold issuedTotal at htick ⊢
      dsimp only
      omega
    · dsimp only
      omega
    · intro t2 ht2
      rcases List.mem_or_eq_of_mem_set ht2 with hmem | rfl
      · exact htask t2 hmem
      · obtain ⟨⟨cs, hcs, hiss⟩, _⟩ := hTI hi
        refine ⟨⟨cs ++ [p], ?_, ?_⟩, fun h => by cases h⟩
        · rw [hcs, hrem]
          simp
        · dsimp only
          rw [hiss, List.map_append]
          rfl
  | complete i t hi hph =>
    have hc1 := countP_set
      (fun t => t.phase == Phase.ready || t.phase == Phase.inflight)
      s.tasks i t ⟨t.url, t.rem, t.issued, Phase.ready⟩ hi
    have hc2 := countP_set (fun t => t.phase == Phase.inflight)
      s.tasks i t ⟨t.url, t.rem, t.issued, Phase.ready⟩ hi
    have hc3 := countP_set (fun t => t.phase == Phase.crashed)
      s.tasks i t ⟨t.url, t.rem, t.issued, Phase.ready⟩ hi
    have hc4 := countP_set (fun t => t.phase == Phase.waiting)
      s.tasks i t ⟨t.url, t.rem, t.issued, Phase.ready⟩ hi
    have hs1 := sum_map_set (fun t => t.issued.length)
      s.tasks i t ⟨t.url, t.rem, t.issued, Phase.ready⟩ hi
    simp only [hph] at hc1 hc2 hc3 hc4
    simp at hc1 hc2 hc3 hc4
    dsimp only at hs1
    refine ⟨?_, ?_, ?_, ?_, ?_⟩
    · rw [map_set_eq (fun x : Task => x.url) s.tasks i t ⟨t.url, t.rem, t.issued, Phase.ready⟩ hi rfl]
      exact hurl
    · dsimp only
      omega
    · unfold issuedTotal at htick ⊢
      dsimp only
      omega
    · dsimp only
      omega
    · intro t2 ht2
      rcases List.mem_or_eq_of_mem_set ht2 with hmem | rfl
      · exact htask t2 hmem
      · obtain ⟨⟨cs, hcs, hiss⟩, _⟩ := hTI hi
        exact ⟨⟨cs, hcs, hiss⟩, fun h => by cases h⟩
  | crash i t hi hph =>
    have hc1 := countP_set
      (fun t => t.phase == Phase.ready || t.phase == Phase.inflight)
      s.tasks i t ⟨t.url, t.rem, t.issued, Phase.crashed⟩ hi
    have hc2 := countP_set (fun t => t.phase == Phase.inflight)
      s.tasks i t ⟨t.url, t.rem, t.issued, Phase.crashed⟩ hi
    have hc3 := countP_set (fun t => t.phase == Phase.crashed)
      s.tasks i t ⟨t.url, t.rem, t.issued, Phase.crashed⟩ hi
    have hc4 := countP_set (fun t => t.phase == Phase.waiting)
      s.tasks i t ⟨t.url, t.rem, t.issued, Phase.crashed⟩ hi
    have hs1 := sum_map_set (fun t => t.issued.length)
      s.tasks i t ⟨t.url, t.rem, t.issued, Phase.crashed⟩ hi
    simp only [hph] at hc1 hc2 hc3 hc4
    simp at hc1 hc2 hc3 hc4
    dsimp only at hs1
    refine ⟨?_, ?_, ?_, ?_, ?_⟩
    · rw [map_set_eq (fun x : Task => x.url) s.tasks i t ⟨t.url, t.rem, t.issued, Phase.crashed⟩ hi rfl]
      exact hurl
    · dsimp only
      omega
    · unfold issuedTotal at htick ⊢
      dsimp only
      omega
    · dsimp only
      omega
    · intro t2 ht2
      rcases List.mem_or_eq_of_mem_set ht2 with hmem | rfl
      · exact htask t2 hmem
      · obtain ⟨⟨cs, hcs, hiss⟩, _⟩ := hTI hi
        exact ⟨⟨cs, hcs, hiss⟩, fun h => by cases h⟩
  | finish i t hi hph hrem =>
    have hc1 := countP_set
      (fun t => t.phase == Phase.ready || t.phase == Phase.inflight)
      s.tasks i t ⟨t.url, t.rem, t.issued, Phase.done⟩ hi
    have hc2 := countP_set (fun t => t.phase == Phase.inflight)
      s.tasks i t ⟨t.url, t.rem, t.issued, Phase.done⟩ hi
    have hc3 := countP_set (fun t => t.phase == Phase.crashed)
      s.tasks i t ⟨t.url, t.rem, t.issued, Phase.done⟩ hi
    have hc4 := countP_set (fun t => t.phase == Phase.waiting)
      s.tasks i t ⟨t.url, t.rem, t.issued, Phase.done⟩ hi
    have hs1 := sum_map_set (fun t => t.issued.length)
      s.tasks i t ⟨t.url, t.rem, t.issued, Phase.done⟩ hi
    simp only [hph] at hc1 hc2 hc3 hc4
    simp at hc1 hc2 hc3 hc4
    dsimp only at hs1
    refine ⟨?_, ?_, ?_, ?_, ?_⟩
    · rw [map_set_eq (fun x : Task => x.url) s.tasks i t ⟨t.url, t.rem, t.issued, Phase.done⟩ hi rfl]
      exact hurl
    · dsimp only
      omega
    · unfold issuedTotal at htick ⊢
      dsimp only
      omega
    · dsimp only
      omega
    · intro t2 ht2
      rcases List.mem_or_eq_of_mem_set ht2 with hmem | rfl
      · exact htask t2 hmem
      · obtain ⟨⟨cs, hcs, hiss⟩, _⟩ := hTI hi
        exact ⟨⟨cs, hcs, hiss⟩, fun _ => hrem⟩

theorem reaches_inv (cf : Conf) {s : St} (h : Reaches cf (initSt cf) s) :
    Inv cf s := by
  unfold Reaches at h
  induction h with
  | refl => exact inv_init cf
  | tail _ h2 ih => exact inv_step cf h2 ih

/-! ### Consequences at the end of a run -/

theorem allDone_ticks (cf : Conf) {s : St} (hinv : Inv cf s) (hd : AllDone s) :
    issuedTotal s = cf.urls.length * cf.payloads.length ∧
    s.ticks = cf.urls.length * cf.payloads.length := by
  obtain ⟨hurl, _, htick, _, htask⟩ := hinv
  have hlen : s.tasks.length = cf.urls.length := by
    have := congrArg List.length hurl
    rw [List.length_map] at this
    exact this
  have hsum : issuedTotal s = s.tasks.length * cf.payloads.length := by
    unfold issuedTotal
    apply sum_map_const
    intro t ht
    obtain ⟨⟨cs, hcs, hiss⟩, hdone⟩ := htask t ht
    have hrem := hdone (hd t ht)
    rw [hrem, List.append_nil] at hcs
    rw [hiss, List.length_map, hcs]
  have hinfl : s.tasks.countP (fun t => t.phase == Phase.inflight) = 0 := by
    rw [List.countP_eq_zero]
    intro t ht
    simp [hd t ht]
  have hcrash : s.tasks.countP (fun t => t.phase == Phase.crashed) = 0 := by
    rw [List.countP_eq_zero]
    intro t ht
    simp [hd t ht]
  constructor
  · rw [hsum, hlen]
  · rw [hinfl, hcrash, hsum, hlen] at htick
    omega

theorem terminal_acquires (cf : Conf) {s : St} (hinv : Inv cf s)
    (hterm : Terminal s) : s.acquires = cf.urls.length := by
  obtain ⟨_, _, _, hacq, _⟩ := hinv
  have h0 : s.tasks.countP (fun t => t.phase == Phase.waiting) = 0 := by
    rw [List.countP_eq_zero]
    intro t ht
    rcases hterm t ht with h | h <;> simp [h]
  omega

theorem allDone_issued (cf : Conf) {s : St} (hinv : Inv cf s) (hd : AllDone s) :
    s.tasks.map (fun t => t.issued) =
      cf.urls.map (fun u => cf.payloads.map (fun p => pyReplace u cf.keyword p)) := by
  obtain ⟨hurl, _, _, _, htask⟩ := hinv
  have h1 : s.tasks.map (fun t => t.issued) = s.tasks.map
      (fun t => cf.payloads.map (fun p => pyReplace t.url cf.keyword p)) := by
    apply List.map_congr_left
    intro t ht
    obtain ⟨⟨cs, hcs, hiss⟩, hdone⟩ := htask t ht
    have hrem := hdone (hd t ht)
    rw [hrem, List.append_nil] at hcs
    rw [hiss, ← hcs]
  rw [h1, ← hurl, List.map_map]
  rfl

/-! ### A concrete run: one URL, two payloads, concurrency 1 -/

def exConf : Conf := ⟨[S "http://e/FUZZ"], [S "a", S "b"], S "FUZZ", 1⟩

def exFinal : St :=
  ⟨[⟨S "http://e/FUZZ", [], [S "http://e/a", S "http://e/b"], Phase.done⟩], 1, 2, 1⟩

theorem exReach : Reaches exConf (initSt exConf) exFinal := by
  have h1 : Step exConf (initSt exConf)
      ⟨[⟨S "http://e/FUZZ", [S "a", S "b"], [], Phase.ready⟩], 0, 0, 1⟩ :=
    Step.acquire _ 0 ⟨S "http://e/FUZZ", [S "a", S "b"], [], Phase.waiting⟩
      rfl rfl (by decide)
  have h2 : Step exConf
      ⟨[⟨S "http://e/FUZZ", [S "a", S "b"], [], Phase.ready⟩], 0, 0, 1⟩
      ⟨[⟨S "http://e/FUZZ", [S "b"], [S "http://e/a"], Phase.inflight⟩], 0, 0, 1⟩ :=
    Step.issue _ 0 ⟨S "http://e/FUZZ", [S "a", S "b"], [], Phase.ready⟩
      (S "a") [S "b"] rfl rfl rfl
  have h3 : Step exConf
      ⟨[⟨S "http://e/FUZZ", [S "b"], [S "http://e/a"], Phase.inflight⟩], 0, 0, 1⟩
      ⟨[⟨S "http://e/FUZZ", [S "b"], [S "http://e/a"], Phase.ready⟩], 0, 1, 1⟩ :=
    Step.complete _ 0 ⟨S "http://e/FUZZ", [S "b"], [S "http://e/a"],
      Phase.inflight⟩ rfl rfl
  have h4 : Step exConf
      ⟨[⟨S "http://e/FUZZ", [S "b"], [S "http://e/a"], Phase.ready⟩], 0, 1, 1⟩
      ⟨[⟨S "http://e/FUZZ", [],
        [S "http://e/a", S "http://e/b"], Phase.inflight⟩], 0, 1, 1⟩ :=
    Step.issue _ 0 ⟨S "http://e/FUZZ", [S "b"], [S "http://e/a"], Phase.ready⟩
      (S "b") [] rfl rfl rfl
  have h5 : Step exConf
      ⟨[⟨S "http://e/FUZZ", [],
        [S "http://e/a", S "http://e/b"], Phase.inflight⟩], 0, 1, 1⟩
      ⟨[⟨S "http://e/FUZZ", [],
        [S "http://e/a", S "http://e/b"], Phase.ready⟩], 0, 2, 1⟩ :=
    Step.complete _ 0 ⟨S "http://e/FUZZ", [],
      [S "http://e/a", S "http://e/b"], Phase.inflight⟩ rfl rfl
  have h6 : Step exConf
      ⟨[⟨S "http://e/FUZZ", [],
        [S "http://e/a", S "http://e/b"], Phase.ready⟩], 0, 2, 1⟩
      exFinal :=
    Step.finish _ 0 ⟨S "http://e/FUZZ", [],
      [S "http://e/a", S "http://e/b"], Phase.ready⟩ rfl rfl rfl
  exact (((((Relation.ReflTransGen.refl.tail h1).tail h2).tail h3).tail
    h4).tail h5).tail h6

/-- The crashing run: the first fetch raises outside the caught tuple. -/
def crashFinal : St :=
  ⟨[⟨S "http://e/FUZZ", [S "b"], [S "http://e/a"], Phase.crashed⟩], 1, 0, 1⟩

theorem crashReach : Reaches exConf (initSt exConf) crashFinal := by
  have h1 : Step exConf (initSt exConf)
      ⟨[⟨S "http://e/FUZZ", [S "a", S "b"], [], Phase.ready⟩], 0, 0, 1⟩ :=
    Step.acquire _ 0 ⟨S "http://e/FUZZ", [S "a", S "b"], [], Phase.waiting⟩
      rfl rfl (by decide)
  have h2 : Step exConf
      ⟨[⟨S "http://e/FUZZ", [S "a", S "b"], [], Phase.ready⟩], 0, 0, 1⟩
      ⟨[⟨S "http://e/FUZZ", [S "b"], [S "http://e/a"], Phase.inflight⟩], 0, 0, 1⟩ :=
    Step.issue _ 0 ⟨S "http://e/FUZZ", [S "a", S "b"], [], Phase.ready⟩
      (S "a") [S "b"] rfl rfl rfl
  have h3 : Step exConf
      ⟨[⟨S "http://e/FUZZ", [S "b"], [S "http://e/a"], Phase.inflight⟩], 0, 0, 1⟩
      crashFinal :=
    Step.crash _ 0 ⟨S "http://e/FUZZ", [S "b"], [S "http://e/a"],
      Phase.inflight⟩ rfl rfl
  exact ((Relation.ReflTransGen.refl.tail h1).tail h2).tail h3

instance (s : St) : Decidable (AllDone s) :=
  inferInstanceAs (Decidable (∀ t ∈ s.tasks, t.phase = Phase.done))

instance (s : St) : Decidable (Terminal s) :=
  inferInstanceAs
    (Decidable (∀ t ∈ s.tasks, t.phase = Phase.done ∨ t.phase = Phase.crashed))

/-! ## The claims -/

/-- C1: in every state the dispatcher can reach, no more than `concurrency`
HTTP requests are outstanding (issued but unanswered) at once, whatever the
numbers of targets and payloads: at most `conc` tasks hold a semaphore slot,
and a slot-holding task awaits at most one fetch at a time. -/
theorem C1_outstanding_le_conc (cf : Conf) (s : St)
    (h : Reaches cf (initSt cf) s) : outstanding s ≤ cf.conc := by
  obtain ⟨_, hsem, _, _, _⟩ := reaches_inv cf h
  have himp : ∀ a ∈ s.tasks, (a.phase == Phase.inflight) = true →
      (a.phase == Phase.ready || a.phase == Phase.inflight) = true := by
    intro a _ hp
    rw [hp, Bool.or_true]
  have hmono := countP_mono _ _ s.tasks himp
  unfold outstanding
  omega

theorem C1_witness : outstanding exFinal ≤ exConf.conc :=
  C1_outstanding_le_conc exConf exFinal exReach

/-- C2 (counterexample): a completed run over one URL and two payloads — two
(URL, payload) Fuzz Tasks — performs exactly ONE semaphore acquisition, not
one per Fuzz Task: `async with semaphore` (line 54) wraps the whole payload
loop, so slots are held per target URL. -/
theorem C2_counterexample :
    Reaches exConf (initSt exConf) exFinal ∧ AllDone exFinal ∧
    exFinal.acquires = 1 ∧ exConf.urls.length * exConf.payloads.length = 2 :=
  ⟨exReach, by decide, rfl, rfl⟩

/-- C2 (amended): a concurrency slot is acquired once per target URL and held
across all of that URL's payloads: every terminated run performs exactly
`|urls|` acquisitions, regardless of the number of payloads. -/
theorem C2_acquires_per_url (cf : Conf) (s : St)
    (h : Reaches cf (initSt cf) s) (hterm : Terminal s) :
    s.acquires = cf.urls.length :=
  terminal_acquires cf (reaches_inv cf h) hterm

theorem C2_witness : exFinal.acquires = exConf.urls.length :=
  C2_acquires_per_url exConf exFinal exReach (by decide)

/-- C3 (counterexample): a fetch that raises outside the tuple caught in
`fetch_url` (lines 47–51) escapes `process_url` into the batch coordinator:
the run below terminates with its task in the `crashed` phase captured by
`gather(..., return_exceptions=True)`, its second payload never fetched, and
0 of its K = 2 progress ticks counted. -/
theorem C3_counterexample :
    Reaches exConf (initSt exConf) crashFinal ∧ Terminal crashFinal ∧
    (∃ t ∈ crashFinal.tasks, t.phase = Phase.crashed) ∧
    crashFinal.ticks = 0 ∧ exConf.urls.length * exConf.payloads.length = 2 :=
  ⟨crashReach, by decide, by decide, rfl, rfl⟩

/-- C3 (amended): when every fetch resolves inside `fetch_url` (success, or a
failure in the caught exception tuple) — so every task runs to completion —
the run produces exactly one progress tick per Fuzz Task,
K = |urls| × |payloads| in total. -/
theorem C3_ticks_when_no_escape (cf : Conf) (s : St)
    (h : Reaches cf (initSt cf) s) (hdone : AllDone s) :
    s.ticks = cf.urls.length * cf.payloads.length :=
  (allDone_ticks cf (reaches_inv cf h) hdone).2

theorem C3_witness : exFinal.ticks = exConf.urls.length * exConf.payloads.length :=
  C3_ticks_when_no_escape exConf exFinal exReach (by decide)

/-- C4 (code bug): `load_urls` (line 42) passes the literal "FUZZ" to
`fuzzify_url` instead of the configured `args.keyword`: whatever keyword the
user supplies (for example "KEY"), the produced template is marked with
"FUZZ" and contains no occurrence of the supplied keyword. -/
theorem C4_keyword_hardcoded :
    load_urls [S "http://e/?q=1"] = some [S "http://e/?q=FUZZ"] ∧
    ¬ pyIn (S "KEY") (S "http://e/?q=FUZZ") :=
  ⟨by decide, by decide⟩

/-- C5 (counterexample): `parse_qsl` is called with its default
`keep_blank_values=False` (line 33), so the empty-valued pair ("a", "") of
`?a=&b=1` is dropped, not preserved: the fuzzified URL keeps only `b`. -/
theorem C5_counterexample :
    fuzzify_url (S "http://example.com/?a=&b=1") (S "FUZZ")
      = some (S "http://example.com/?b=FUZZ") := by decide

/-- C5 (amended): for a URL not containing the keyword that urlparse accepts,
fuzzify keeps exactly the query pairs with a NON-EMPTY value (duplicates and
order preserved; empty-valued pairs are dropped by
`parse_qsl(keep_blank_values=False)`), replaces every kept value with the
keyword, and reassembles with the original scheme, authority, path, params
and fragment. -/
theorem C5_query_pairs (u k : List Char) (hnin : ¬ pyIn k u)
    (R : ParseResult) (hp : urlparse u = some R) :
    fuzzify_url u k = some (urlunparse ⟨R.scheme, R.netloc, R.path, R.params,
      urlencode (((parse_qsl R.query true).filter
        (fun kv => !kv.2.isEmpty)).map (fun kv => (kv.1, k))), R.fragment⟩) := by
  rw [fuzzify_of_urlparse u k hnin R hp, parse_qsl_false_filter]
  rfl

theorem C5_witness :
    ¬ pyIn (S "FUZZ") (S "http://example.com/?a=&b=1") ∧
    fuzzify_url (S "http://example.com/?a=&b=1") (S "FUZZ") = some (urlunparse
      ⟨S "http", S "example.com", S "/", [],
        urlencode (((parse_qsl (S "a=&b=1") true).filter
          (fun kv => !kv.2.isEmpty)).map (fun kv => (kv.1, S "FUZZ"))), []⟩) :=
  ⟨by decide, C5_query_pairs _ _ (by decide)
    ⟨S "http", S "example.com", S "/", [], S "a=&b=1", []⟩ (by decide)⟩

/-- C6 (counterexample): `line.strip()` (line 25) strips BOTH ends: the line
"  x" yields the payload "x", so leading whitespace is not preserved. -/
theorem C6_counterexample :
    load_payloads (some [S "  x"]) = [S "x"] ∧ S "  x" ≠ S "x" :=
  ⟨by decide, by decide⟩

/-- C6 (amended): `load_payloads` returns one payload per line in file order,
each equal to its line with a (possibly empty) run of Python whitespace
removed from EACH end — interior characters preserved, and the result starts
and ends with non-whitespace. -/
theorem C6_strip_both (lines : List (List Char)) :
    load_payloads (some lines) = lines.map pyStrip ∧
    ∀ l ∈ lines, ∃ pre post, l = pre ++ pyStrip l ++ post ∧
      (∀ c ∈ pre, isPySpace c = true) ∧ (∀ c ∈ post, isPySpace c = true) ∧
      (∀ c ∈ (pyStrip l).take 1, isPySpace c = false) ∧
      (∀ c ∈ (pyStrip l).reverse.take 1, isPySpace c = false) :=
  ⟨rfl, fun l _ => pyStrip_decomp l⟩

/-- C7: in every completed run the total number of requests equals
|urls| × |payloads| exactly, and the i-th task's request URLs are the i-th
template with, for each payload in order, EVERY occurrence of the keyword
replaced by that payload (split-on-keyword / rejoin-with-payload
specification). -/
theorem C7_fill_and_count (cf : Conf) (s : St)
    (h : Reaches cf (initSt cf) s) (hdone : AllDone s) (hk : cf.keyword ≠ []) :
    issuedTotal s = cf.urls.length * cf.payloads.length ∧
    s.tasks.map (fun t => t.issued) = cf.urls.map
      (fun u => cf.payloads.map (fun p => replaceAllSpec u cf.keyword p)) := by
  have hinv := reaches_inv cf h
  refine ⟨(allDone_ticks cf hinv hdone).1, ?_⟩
  rw [allDone_issued cf hinv hdone]
  apply List.map_congr_left
  intro u _
  apply List.map_congr_left
  intro p _
  exact pyReplace_spec u cf.keyword p hk

theorem C7_witness :
    issuedTotal exFinal = exConf.urls.length * exConf.payloads.length ∧
    exFinal.tasks.map (fun t => t.issued) = exConf.urls.map
      (fun u => exConf.payloads.map
        (fun p => replaceAllSpec u exConf.keyword p)) :=
  C7_fill_and_count exConf exFinal exReach (by decide) (by decide)

/-- C8: when the keyword already occurs in the URL, `fuzzify_url` takes its
first branch and returns the URL unchanged. -/
theorem C8_identity_on_marked (url keyword : List Char) (h : pyIn keyword url) :
    fuzzify_url url keyword = some url := by
  unfold fuzzify_url
  rw [if_pos h]

theorem C8_witness :
    pyIn (S "FUZZ") (S "http://x/?next=FUZZ") ∧
    fuzzify_url (S "http://x/?next=FUZZ") (S "FUZZ")
      = some (S "http://x/?next=FUZZ") :=
  ⟨by decide, C8_identity_on_marked _ _ (by decide)⟩

/-- C9: for a redirect chain whose entries do not themselves contain "-->",
the finding is classified as confirmed exactly when the chain has more than
one hop (the "-->" test on the " --> "-joined chain depends only on the
length), and informational exactly for a single hop. -/
theorem C9_classification (history : List (List Char))
    (hfree : ∀ x ∈ history, ¬ pyIn arrowNeedle x) :
    isConfirmedFinding history = true ↔ 1 < history.length := by
  unfold isConfirmedFinding
  rw [decide_eq_true_eq]
  cases history with
  | nil =>
    constructor
    · intro h
      have h2 : arrowNeedle <:+: ([] : List Char) := h
      rw [List.infix_nil] at h2
      exact absurd h2 (by decide)
    · intro h
      simp at h
  | cons x t =>
    cases t with
    | nil =>
      rw [show locationsString [x] = x from by
        simp [locationsString, List.intercalate]]
      constructor
      · intro h
        exact absurd h (hfree x (by simp))
      · intro h
        simp at h
    | cons y t2 =>
      constructor
      · intro _
        simp only [List.length_cons]
        omega
      · intro _
        have hstep : locationsString (x :: y :: t2)
            = x ++ arrowSep ++ locationsString (y :: t2) := by
          unfold locationsString
          simp [List.intercalate, List.intersperse]
        show arrowNeedle <:+: locationsString (x :: y :: t2)
        rw [hstep]
        have h1 : arrowNeedle <:+: arrowSep := by decide
        exact h1.trans ⟨x, locationsString (y :: t2), rfl⟩

theorem C9_witness :
    (∀ x ∈ [S "http://a/", S "http://b/"], ¬ pyIn arrowNeedle x) ∧
    (isConfirmedFinding [S "http://a/", S "http://b/"] = true ↔
      1 < ([S "http://a/", S "http://b/"] : List (List Char)).length) :=
  ⟨by decide, C9_classification _ (by decide)⟩

/-- C10: `fuzzify_url` is idempotent: for every URL and keyword, applying it
to an already-fuzzified URL (same keyword) returns that URL unchanged —
including URLs with no query parameters. -/
theorem C10_fuzzify_idempotent (u k : List Char) :
    (fuzzify_url u k).bind (fun v => fuzzify_url v k) = fuzzify_url u k := by
  by_cases hin : pyIn k u
  · have hfu : fuzzify_url u k = some u := by
      unfold fuzzify_url
      rw [if_pos hin]
    rw [hfu]
    dsimp only [Option.bind]
    exact hfu
  · have hk : k ≠ [] := by
      intro h0
      rw [h0] at hin
      exact hin (pyIn_nil u)
    cases hsp : urlsplit u with
    | none =>
      have hfu : fuzzify_url u k = none := by
        unfold fuzzify_url
        rw [if_neg hin, urlparse_pathParams, hsp]
        rfl
      rw [hfu]
      rfl
    | some r =>
      have hp : urlparse u = some ⟨r.scheme, r.netloc, (pathParams r.path).1,
          (pathParams r.path).2, r.query, r.fragment⟩ := by
        rw [urlparse_pathParams, hsp]
        rfl
      have hfu := fuzzify_of_urlparse u k hin _ hp
      rw [hfu]
      dsimp only [Option.bind]
      exact fuzzify_fixed u k hk r hsp

end OpenRedireX
